import Mathlib

/-!
Verification development for the pukka validation engine.

The definitions below are a shallow embedding of the TypeScript sources
(src/base.ts, src/internal.ts, src/types.ts, src/context.ts, src/issue.ts,
src/extend.ts).  JavaScript values are modelled by the inductive JSValue
(numbers are modelled as integers; float-specific behaviour is not needed by
any claim).  Mutable state (the per-parse context) is passed explicitly.
Issue identity (JavaScript Set semantics over object references) is modelled
by tagging every issue created through the context with a unique numeric id.
Recursive engine functions take a fuel argument, decremented on every call,
so that all definitions are structurally recursive and kernel-reducible;
exhausted fuel and the few places where the source throws an engine error
(for example UnionType.check) are both mapped to a failure value.
User-supplied refinement callbacks are represented by small first-order
programs (RefProg) over the documented ParseContext interface, interpreted
by the engine exactly where the source invokes the callback.
-/

namespace Pukka

/-- Path keys: the source type Path = (string | number)[]. -/
inductive PKey where
  | s (key : String)
  | n (idx : Int)
  deriving DecidableEq, Repr

abbrev Path := List PKey

/-- JavaScript runtime values reachable in the engine.  Numbers are modelled
as integers; File objects carry just their name. -/
inductive JSValue where
  | undef
  | null
  | str (s : String)
  | num (n : Int)
  | bool (b : Bool)
  | file (name : String)
  | obj (fields : List (String × JSValue))
  | arr (items : List JSValue)
  deriving Repr

mutual

/-- Structural equality test on values (used only to obtain decidable
equality for the model; the engine itself never compares whole values). -/
def jsEq : JSValue → JSValue → Bool
  | .undef, .undef => true
  | .null, .null => true
  | .str a, .str b => a = b
  | .num a, .num b => a = b
  | .bool a, .bool b => a = b
  | .file a, .file b => a = b
  | .obj a, .obj b => jsEqFields a b
  | .arr a, .arr b => jsEqItems a b
  | _, _ => false

def jsEqFields : List (String × JSValue) → List (String × JSValue) → Bool
  | [], [] => true
  | kv1 :: r1, kv2 :: r2 =>
    decide (kv1.1 = kv2.1) && jsEq kv1.2 kv2.2 && jsEqFields r1 r2
  | _, _ => false

def jsEqItems : List JSValue → List JSValue → Bool
  | [], [] => true
  | v1 :: r1, v2 :: r2 => jsEq v1 v2 && jsEqItems r1 r2
  | _, _ => false

end

mutual

theorem jsEq_iff : ∀ (a b : JSValue), jsEq a b = true ↔ a = b
  | .undef, b => by cases b <;> simp [jsEq]
  | .null, b => by cases b <;> simp [jsEq]
  | .str _, b => by cases b <;> simp [jsEq]
  | .num _, b => by cases b <;> simp [jsEq]
  | .bool _, b => by cases b <;> simp [jsEq]
  | .file _, b => by cases b <;> simp [jsEq]
  | .obj f1, b => by
    cases b <;> simp [jsEq]
    exact jsEqFields_iff f1 _
  | .arr i1, b => by
    cases b <;> simp [jsEq]
    exact jsEqItems_iff i1 _

theorem jsEqFields_iff :
    ∀ (a b : List (String × JSValue)), jsEqFields a b = true ↔ a = b
  | [], b => by cases b <;> simp [jsEqFields]
  | _ :: _, [] => by simp [jsEqFields]
  | (k1, v1) :: r1, (k2, v2) :: r2 => by
    simp [jsEqFields, jsEq_iff v1 v2, jsEqFields_iff r1 r2, and_assoc]

theorem jsEqItems_iff :
    ∀ (a b : List JSValue), jsEqItems a b = true ↔ a = b
  | [], b => by cases b <;> simp [jsEqItems]
  | _ :: _, [] => by simp [jsEqItems]
  | v1 :: r1, v2 :: r2 => by
    simp [jsEqItems, jsEq_iff v1 v2, jsEqItems_iff r1 r2]

end

instance : DecidableEq JSValue :=
  fun a b => decidable_of_iff (jsEq a b = true) (jsEq_iff a b)

def exceptToSum {ε α : Type} : Except ε α → ε ⊕ α
  | .error e => .inl e
  | .ok a => .inr a

theorem exceptToSum_inj {ε α : Type} (a b : Except ε α) :
    exceptToSum a = exceptToSum b ↔ a = b := by
  cases a <;> cases b <;> simp [exceptToSum]

instance {ε α : Type} [DecidableEq ε] [DecidableEq α] :
    DecidableEq (Except ε α) :=
  fun a b => decidable_of_iff _ (exceptToSum_inj a b)

/-- Primitive literal values (string | number | boolean), used by literal
type nodes and object discriminant keys. -/
inductive Prim where
  | pstr (s : String)
  | pnum (n : Int)
  | pbool (b : Bool)
  deriving DecidableEq, Repr

def Prim.toJS : Prim → JSValue
  | .pstr s => .str s
  | .pnum n => .num n
  | .pbool b => .bool b

/-- util.ts isObject: typeof value is object and the constructor is Object,
so arrays, null and File instances are not plain objects. -/
def isObject : JSValue → Bool
  | .obj _ => true
  | _ => false

def isArray : JSValue → Bool
  | .arr _ => true
  | _ => false

def isObjOrArr (v : JSValue) : Bool := isObject v || isArray v

/-- JavaScript input == null (matches undefined and null). -/
def isNullish : JSValue → Bool
  | .undef => true
  | .null => true
  | _ => false

/-- Strict equality of a runtime value against a primitive literal.  Objects
and arrays are never reference-equal to a stored primitive. -/
def primEq (v : JSValue) (p : Prim) : Bool :=
  match v, p with
  | .str a, .pstr b => a = b
  | .num a, .pnum b => a = b
  | .bool a, .pbool b => a = b
  | _, _ => false

/-- Rendering used by string interpolation in the core issue messages. -/
def jsShow : JSValue → String
  | .undef => "undefined"
  | .null => "null"
  | .str s => s
  | .num n => toString n
  | .bool b => if b then "true" else "false"
  | .file _ => "[object File]"
  | .obj _ => "[object Object]"
  | .arr _ => ""

/-- String.prototype.trim, over the character list (whitespace per
Char.isWhitespace; the exotic Unicode space classes are not needed by any
claim). -/
def jsTrim (s : String) : String :=
  let cs := s.toList.dropWhile Char.isWhitespace
  String.mk ((cs.reverse.dropWhile Char.isWhitespace).reverse)

/-- String(input) for the values the string coercion can receive (never
objects or arrays, see StringType.coerce). -/
def jsToString : JSValue → String
  | .str s => s
  | .num n => toString n
  | .bool b => if b then "true" else "false"
  | v => jsShow v

/-- Number.parseInt semantics restricted to what keyOrIndex needs: parse an
optional sign followed by leading decimal digits. -/
def parseIntM (s : String) : Option Int :=
  let (neg, cs) :=
    match s.toList with
    | '-' :: rest => (true, rest)
    | cs => (false, cs)
  let digits := cs.takeWhile Char.isDigit
  if digits.isEmpty then none
  else
    let nat := digits.foldl (fun acc c => acc * 10 + (c.toNat - '0'.toNat)) 0
    some (if neg then -(nat : Int) else (nat : Int))

/-- Number(input), with none standing for NaN.  String parsing is restricted
to integer numerals (trimmed); no claim depends on float parsing. -/
def jsNumber : JSValue → Option Int
  | .num n => some n
  | .bool b => some (if b then 1 else 0)
  | .null => some 0
  | .str s =>
    let t := jsTrim s
    if t = "" then some 0
    else
      let (neg, cs) :=
        match t.toList with
        | '-' :: rest => (true, rest)
        | cs => (false, cs)
      if cs ≠ [] && cs.all Char.isDigit then
        let nat := cs.foldl (fun acc c => acc * 10 + (c.toNat - '0'.toNat)) 0
        some (if neg then -(nat : Int) else (nat : Int))
      else none
  | .arr [] => some 0
  | .arr [v] => jsNumber v
  | _ => none

/-- Boolean(input) truthiness. -/
def jsTruthy : JSValue → Bool
  | .undef => false
  | .null => false
  | .bool b => b
  | .num n => n ≠ 0
  | .str s => s ≠ ""
  | _ => true

def PKey.render : PKey → String
  | .s k => k
  | .n i => toString i

/-- path.join with a dot, the key format of the per-path input map and the
proxy cache (internal.ts). -/
def joinPath (p : Path) : String :=
  String.intercalate "." (p.map PKey.render)

/-- internal.ts keyOrIndex: convert a proxy property name to a numeric path
key when Number.parseInt succeeds. -/
def keyOrIndex (prop : String) : PKey :=
  match parseIntM prop with
  | some i => .n i
  | none => .s prop

/-- Property read target[prop] as performed by the proxy get trap. -/
def jsGetStr (v : JSValue) (prop : String) : JSValue :=
  match v with
  | .obj fields =>
    (fields.find? (fun f => decide (f.1 = prop))).elim .undef (·.2)
  | .arr items =>
    if prop = "length" then .num items.length
    else
      match parseIntM prop with
      | some i =>
        if h : 0 ≤ i ∧ i.toNat < items.length then items.get ⟨i.toNat, h.2⟩
        else .undef
      | none => .undef
  | _ => JSValue.undef

/-- Indexed read parent[key] used by the structural children loop. -/
def jsGet (v : JSValue) (k : PKey) : JSValue :=
  match k with
  | .s key => jsGetStr v key
  | .n i =>
    match v with
    | .arr items =>
      if h : 0 ≤ i ∧ i.toNat < items.length then items.get ⟨i.toNat, h.2⟩
      else .undef
    | .obj _ => jsGetStr v (toString i)
    | _ => JSValue.undef

/-- Object field assignment with JavaScript insertion-order semantics:
replace an existing key in place, append a new key. -/
def setField (fields : List (String × JSValue)) (k : String) (v : JSValue) :
    List (String × JSValue) :=
  match fields with
  | [] => [(k, v)]
  | (k0, v0) :: rest =>
    if k0 = k then (k0, v) :: rest else (k0, v0) :: setField rest k v

/-- Indexed write parent[key] = child performed on the shallow clone. -/
def jsSet (v : JSValue) (k : PKey) (child : JSValue) : JSValue :=
  match v, k with
  | .obj fields, .s key => .obj (setField fields key child)
  | .arr items, .n i =>
    if 0 ≤ i ∧ i.toNat < items.length then .arr (items.set i.toNat child)
    else .arr items
  | _, _ => v

/-- Update a field that already exists, leaving the value unchanged when the
key is absent.  This mirrors visibility of in-place child mutation through
the original input object: the structural loop writes results only into the
shallow clone, so the caller keeps seeing the original (possibly mutated)
children, and never gains new keys. -/
def jsUpdateExisting (v : JSValue) (k : PKey) (child : JSValue) : JSValue :=
  match v, k with
  | .obj fields, .s key =>
    if (fields.find? (fun f => decide (f.1 = key))).isSome
    then .obj (setField fields key child)
    else .obj fields
  | .arr items, .n i =>
    if 0 ≤ i ∧ i.toNat < items.length then .arr (items.set i.toNat child)
    else .arr items
  | _, _ => v

/-- Association-list write with the position-preserving update of a JS Map:
replace an existing key in place, append a new key at the end. -/
def setAssoc {α : Type} (l : List (String × α)) (k : String) (v : α) :
    List (String × α) :=
  match l with
  | [] => [(k, v)]
  | (k0, v0) :: rest =>
    if k0 = k then (k0, v) :: rest else (k0, v0) :: setAssoc rest k v

def lookupAssoc {α : Type} (l : List (String × α)) (k : String) : Option α :=
  match l with
  | [] => none
  | (k0, v0) :: rest => if k0 = k then some v0 else lookupAssoc rest k

/-! ## Issues (issue.ts) -/

/-- An issue record; the id field models JavaScript object identity, since
the context deduplicates issues by reference in a Set. -/
structure Issue where
  id : Nat
  path : Path
  code : String
  message : String
  deriving DecidableEq, Repr

/-- CORE_ISSUES.invalid_type message: the received tag is array for arrays,
object for everything whose typeof is object, else the interpolated value. -/
def invalidTypeMsg (expected : String) (input : JSValue) : String :=
  let received :=
    match input with
    | .arr _ => "array"
    | .obj _ => "object"
    | .null => "object"
    | .file _ => "object"
    | v => jsShow v
  "Expected: " ++ expected ++ ", Received: " ++ received

/-- CORE_ISSUES.required message. -/
def requiredMsg (input : JSValue) : String :=
  "Value is required, Received \x27" ++ jsShow input ++ "\x27"

/-- CORE_ISSUES.exception message. -/
def exceptionMsg (m : String) : String := "Exception: " ++ m

/-! ## Parse options and context (context.ts, internal.ts) -/

/-- The options bag: the three reserved scalar namespaces, plus the set of
free-form keys holding a non-null value (retrievable via ctx.get; only
presence matters to the engine, which throws ContextKeyError when the looked
up value is null or undefined). -/
structure Opts where
  stringCoerce : Option Bool := none
  stringTrim : Option Bool := none
  stringEmpty : Option Bool := none
  numberCoerce : Option Bool := none
  booleanCoerce : Option Bool := none
  keys : List String := []
  deriving DecidableEq, Repr

/-- One entry of the per-path input map.  The source also stores the owning
type node, which no core code path ever reads back, so it is omitted. -/
structure InputEntry where
  value : JSValue
  parsed : Bool
  deriving DecidableEq, Repr

/-- ParseContextInternal: current path, per-path input map (keyed by the
dot-joined path), the issue set in insertion order, the id counter backing
issue identity, and the options bag. -/
structure Ctx where
  path : Path := []
  inputs : List (String × InputEntry) := []
  issues : List Issue := []
  nextId : Nat := 0
  options : Opts := {}
  deriving DecidableEq, Repr

def Ctx.setPath (ctx : Ctx) (p : Path) : Ctx := { ctx with path := p }

def Ctx.issueCount (ctx : Ctx) : Nat := ctx.issues.length

/-- Create an issue and add it to the set (every ctx.issue overload funnels
here after resolving code, message and path; a missing path defaults to the
current path). -/
def Ctx.pushIssue (ctx : Ctx) (code message : String) (path : Option Path) :
    Ctx × Issue :=
  let i : Issue := ⟨ctx.nextId, path.getD ctx.path, code, message⟩
  ({ ctx with issues := ctx.issues ++ [i], nextId := ctx.nextId + 1 }, i)

/-- Set.add for each issue: identity-based, so an id already present is not
added again. -/
def Ctx.addIssues (ctx : Ctx) (is : List Issue) : Ctx :=
  is.foldl
    (fun c i =>
      if c.issues.any (fun j => decide (j.id = i.id)) then c
      else { c with issues := c.issues ++ [i] })
    ctx

/-- Set.delete for each issue, again by identity. -/
def Ctx.removeIssues (ctx : Ctx) (is : List Issue) : Ctx :=
  { ctx with
    issues := ctx.issues.filter
      (fun j => !(is.any (fun i => decide (i.id = j.id)))) }

def Ctx.setInput (ctx : Ctx) (input : JSValue) (parsed : Bool) : Ctx :=
  { ctx with inputs := setAssoc ctx.inputs (joinPath ctx.path) ⟨input, parsed⟩ }

/-- pathHasErrors: true when the input map entry at the exact current path is
missing or was not recorded as successfully parsed. -/
def Ctx.pathHasErrors (ctx : Ctx) : Bool :=
  match lookupAssoc ctx.inputs (joinPath ctx.path) with
  | some e => !e.parsed
  | none => true

/-- clone: fresh context sharing no mutable structure with the original. -/
def Ctx.clone (ctx : Ctx) : Ctx :=
  { path := ctx.path, inputs := ctx.inputs, issues := ctx.issues,
    nextId := ctx.nextId, options := ctx.options }

/-- ctx.get(key) succeeds exactly when the options bag holds a non-null
value for the key. -/
def Opts.hasKey (o : Opts) (k : String) : Bool := o.keys.contains k

/-! ## Refinement callbacks as first-order programs

User-supplied refinement callbacks interact with the engine only through the
documented ParseContext interface (field access on the proxied data, the
ctx.issue overloads, ctx.get) and by returning or throwing.  They are
modelled as small programs interpreted at the exact point where the source
invokes the callback. -/

/-- One callback action. -/
inductive RefStep where
  /-- A field access chain on the proxied data, for example
  access ["a", "b", "2"] models reading data.a.b[2]. -/
  | access (props : List String)
  /-- ctx.issue(message, path?) with an optional explicit path. -/
  | raiseMsg (msg : String) (path : Option Path)
  /-- ctx.issue(code, message, path?). -/
  | raiseCode (code msg : String) (path : Option Path)
  /-- ctx.get(key): throws ContextKeyError when the key is absent. -/
  | getKey (key : String)
  /-- An arbitrary thrown error that is not a ContextKeyError. -/
  | throwJs (msg : String)
  deriving DecidableEq, Repr

/-- What the callback returns when it finishes without throwing: undefined,
or the array of the issues it raised (the return-style pattern). -/
inductive RetSpec where
  | unit
  | raised
  deriving DecidableEq, Repr

structure RefProg where
  steps : List RefStep := []
  ret : RetSpec := .unit
  deriving DecidableEq, Repr

/-- A message override callback (the non-string form stored on a validator
entry): it either returns a plain string, or builds and returns an issue via
ctx.issue(code, message, path?). -/
inductive OverrideProg where
  | retMsg (msg : String)
  | retIssueAt (code msg : String) (path : Option Path)
  deriving DecidableEq, Repr

/-- A core-issue override (invalid_type_error / required_error): either a
plain string or a callback. -/
inductive CoreOv where
  | msg (s : String)
  | fn (p : OverrideProg)
  deriving DecidableEq, Repr

/-- One entry of a validator list: the callback, plus name, captured
parameters and message override for extension-registered entries. -/
structure VEntry where
  prog : RefProg
  name : Option String := none
  params : Option (List Prim) := none
  override : Option OverrideProg := none
  deriving DecidableEq, Repr

/-! ## Type nodes (base.ts, types.ts) -/

/-- State shared by every type node: the optional/nullable flags, the
core-issue overrides, and the two validator lists. -/
structure Common where
  isOptional : Bool := false
  isNullable : Bool := false
  invalidTypeError : Option CoreOv := none
  requiredError : Option CoreOv := none
  validators : List VEntry := []
  asyncValidators : List VEntry := []
  deriving DecidableEq, Repr

/-- The type-node tree.  Scalar configuration fields carry the per-instance
config (none falls back to the parse options).  FileType is included;
LiteralType covers the three literal node classes. -/
inductive Node where
  | strN (c : Common) (trim empty coerce : Option Bool)
  | numN (c : Common) (coerce : Option Bool)
  | boolN (c : Common) (coerce : Option Bool)
  | enumN (c : Common) (values : List String)
  | litN (c : Common) (value : Prim)
  | fileN (c : Common)
  | objN (c : Common) (props : List (String × Node))
  | arrN (c : Common) (coerce : Bool) (item : Node)
  | recN (c : Common) (valueType : Node)
  | unionN (c : Common) (members : List Node)

mutual

/-- Structural equality test on type nodes (used only to obtain decidable
equality for the model; the engine never compares whole nodes). -/
def nodeEq : Node → Node → Bool
  | .strN c1 t1 e1 o1, .strN c2 t2 e2 o2 =>
    decide (c1 = c2) && decide (t1 = t2) && decide (e1 = e2)
      && decide (o1 = o2)
  | .numN c1 o1, .numN c2 o2 => decide (c1 = c2) && decide (o1 = o2)
  | .boolN c1 o1, .boolN c2 o2 => decide (c1 = c2) && decide (o1 = o2)
  | .enumN c1 v1, .enumN c2 v2 => decide (c1 = c2) && decide (v1 = v2)
  | .litN c1 v1, .litN c2 v2 => decide (c1 = c2) && decide (v1 = v2)
  | .fileN c1, .fileN c2 => decide (c1 = c2)
  | .objN c1 p1, .objN c2 p2 => decide (c1 = c2) && nodeEqProps p1 p2
  | .arrN c1 b1 i1, .arrN c2 b2 i2 =>
    decide (c1 = c2) && decide (b1 = b2) && nodeEq i1 i2
  | .recN c1 v1, .recN c2 v2 => decide (c1 = c2) && nodeEq v1 v2
  | .unionN c1 m1, .unionN c2 m2 => decide (c1 = c2) && nodeEqList m1 m2
  | _, _ => false

def nodeEqProps : List (String × Node) → List (String × Node) → Bool
  | [], [] => true
  | kv1 :: r1, kv2 :: r2 =>
    decide (kv1.1 = kv2.1) && nodeEq kv1.2 kv2.2 && nodeEqProps r1 r2
  | _, _ => false

def nodeEqList : List Node → List Node → Bool
  | [], [] => true
  | n1 :: r1, n2 :: r2 => nodeEq n1 n2 && nodeEqList r1 r2
  | _, _ => false

end

mutual

theorem nodeEq_iff : ∀ (a b : Node), nodeEq a b = true ↔ a = b
  | .strN _ _ _ _, b => by cases b <;> simp [nodeEq, and_assoc]
  | .numN _ _, b => by cases b <;> simp [nodeEq, and_assoc]
  | .boolN _ _, b => by cases b <;> simp [nodeEq, and_assoc]
  | .enumN _ _, b => by cases b <;> simp [nodeEq, and_assoc]
  | .litN _ _, b => by cases b <;> simp [nodeEq, and_assoc]
  | .fileN _, b => by cases b <;> simp [nodeEq, and_assoc]
  | .objN c1 p1, b => by
    cases b <;> simp [nodeEq, and_assoc, nodeEqProps_iff p1]
  | .arrN c1 b1 i1, b => by
    cases b <;> simp [nodeEq, and_assoc, nodeEq_iff i1]
  | .recN c1 v1, b => by
    cases b <;> simp [nodeEq, and_assoc, nodeEq_iff v1]
  | .unionN c1 m1, b => by
    cases b <;> simp [nodeEq, and_assoc, nodeEqList_iff m1]

theorem nodeEqProps_iff :
    ∀ (a b : List (String × Node)), nodeEqProps a b = true ↔ a = b
  | [], b => by cases b <;> simp [nodeEqProps]
  | _ :: _, [] => by simp [nodeEqProps]
  | (k1, v1) :: r1, (k2, v2) :: r2 => by
    simp [nodeEqProps, nodeEq_iff v1 v2, nodeEqProps_iff r1 r2, and_assoc]

theorem nodeEqList_iff : ∀ (a b : List Node), nodeEqList a b = true ↔ a = b
  | [], b => by cases b <;> simp [nodeEqList]
  | _ :: _, [] => by simp [nodeEqList]
  | n1 :: r1, n2 :: r2 => by
    simp [nodeEqList, nodeEq_iff n1 n2, nodeEqList_iff r1 r2]

end

instance : DecidableEq Node :=
  fun a b => decidable_of_iff (nodeEq a b = true) (nodeEq_iff a b)

def Node.common : Node → Common
  | .strN c _ _ _ => c
  | .numN c _ => c
  | .boolN c _ => c
  | .enumN c _ => c
  | .litN c _ => c
  | .fileN c => c
  | .objN c _ => c
  | .arrN c _ _ => c
  | .recN c _ => c
  | .unionN c _ => c

def Node.withCommon (n : Node) (c : Common) : Node :=
  match n with
  | .strN _ a b d => .strN c a b d
  | .numN _ a => .numN c a
  | .boolN _ a => .boolN c a
  | .enumN _ vs => .enumN c vs
  | .litN _ v => .litN c v
  | .fileN _ => .fileN c
  | .objN _ props => .objN c props
  | .arrN _ co item => .arrN c co item
  | .recN _ vt => .recN c vt
  | .unionN _ ms => .unionN c ms

/-- isLiteral flag of a node together with its literalValue. -/
def Node.litValue : Node → Option Prim
  | .litN _ v => some v
  | _ => none

/-- One discriminant entry of an object node.  The source also stores the
child type node, which getDiscriminatedMatch never consults. -/
structure LiteralKey where
  key : String
  value : Prim
  deriving DecidableEq, Repr

/-- getLiteralKeys: object nodes expose their literal-typed properties, every
other node exposes none (the BaseType default). -/
def getLiteralKeys : Node → List LiteralKey
  | .objN _ props =>
    props.filterMap (fun kv => (kv.2.litValue).map (fun v => ⟨kv.1, v⟩))
  | _ => []

mutual

/-- defaultValue of each node kind; an object node defaults to the object of
its children defaults, a union to the default of its first member (the
source indexes types[0], which for the impossible empty list is modelled as
undefined). -/
def defaultValue : Node → JSValue
  | .strN _ _ _ _ => .str ""
  | .numN _ _ => .num 0
  | .boolN _ _ => .bool false
  | .enumN _ _ => .str ""
  | .litN _ v => v.toJS
  | .fileN _ => .file ""
  | .objN _ props => .obj (defaultsOf props)
  | .arrN _ _ _ => .arr []
  | .recN _ _ => .obj []
  | .unionN _ ms => headDefault ms

def defaultsOf : List (String × Node) → List (String × JSValue)
  | [] => []
  | kv :: rest => (kv.1, defaultValue kv.2) :: defaultsOf rest

def headDefault : List Node → JSValue
  | [] => .undef
  | m :: _ => defaultValue m

end

mutual

/-- hasAsyncValidators: the own asynchronous list, plus (for composite
nodes) the flag of every child node. -/
def hasAsyncValidators : Node → Bool
  | .strN c _ _ _ => !c.asyncValidators.isEmpty
  | .numN c _ => !c.asyncValidators.isEmpty
  | .boolN c _ => !c.asyncValidators.isEmpty
  | .enumN c _ => !c.asyncValidators.isEmpty
  | .litN c _ => !c.asyncValidators.isEmpty
  | .fileN c => !c.asyncValidators.isEmpty
  | .objN c props => !c.asyncValidators.isEmpty || anyAsyncProps props
  | .arrN c _ item => !c.asyncValidators.isEmpty || hasAsyncValidators item
  | .recN c vt => !c.asyncValidators.isEmpty || hasAsyncValidators vt
  | .unionN c ms => !c.asyncValidators.isEmpty || anyAsyncList ms

def anyAsyncProps : List (String × Node) → Bool
  | [] => false
  | kv :: rest => hasAsyncValidators kv.2 || anyAsyncProps rest

def anyAsyncList : List Node → Bool
  | [] => false
  | m :: rest => hasAsyncValidators m || anyAsyncList rest

end

/-! ## check / coerce / clean (types.ts) -/

/-- Outcome of check: pass, or the invalid_type / required issue it created
through the context. -/
inductive CheckRes where
  | pass
  | fail (i : Issue)
  deriving DecidableEq, Repr

/-- StringType.trimValue: instance config, then options, then default true. -/
def trimValue (trim : Option Bool) (opts : Opts) (s : String) : String :=
  if trim.getD (opts.stringTrim.getD true) then jsTrim s else s

def Prim.render : Prim → String
  | .pstr s => s
  | .pnum n => toString n
  | .pbool b => if b then "true" else "false"

/-- check(ctx, input) per node kind.  The result is none for a union node:
UnionType.check throws, because check is only ever invoked on the resolved
member.  Each failing branch creates its issue through the context, exactly
as the source does with ctx.issue(...). -/
def checkFn (n : Node) (ctx : Ctx) (input : JSValue) : Option (Ctx × CheckRes) :=
  match n with
  | .strN _ trim empty _ =>
    match input with
    | .str s =>
      let allowEmpty := empty.getD (ctx.options.stringEmpty.getD true)
      let v := trimValue trim ctx.options s
      if !allowEmpty && v.length = 0 then
        let (ctx, i) := ctx.pushIssue "required" (requiredMsg input) none
        some (ctx, .fail i)
      else some (ctx, .pass)
    | _ =>
      let (ctx, i) :=
        ctx.pushIssue "invalid_type" (invalidTypeMsg "string" input) none
      some (ctx, .fail i)
  | .numN _ _ =>
    match input with
    | .num _ => some (ctx, .pass)
    | _ =>
      let (ctx, i) :=
        ctx.pushIssue "invalid_type" (invalidTypeMsg "number" input) none
      some (ctx, .fail i)
  | .boolN _ _ =>
    match input with
    | .bool _ => some (ctx, .pass)
    | _ =>
      let (ctx, i) :=
        ctx.pushIssue "invalid_type" (invalidTypeMsg "boolean" input) none
      some (ctx, .fail i)
  | .enumN _ values =>
    let isMember :=
      match input with
      | .str s => values.contains s
      | _ => false
    if isMember then some (ctx, .pass)
    else
      let expected := "One of [" ++ String.intercalate "," values ++ "]"
      let (ctx, i) :=
        ctx.pushIssue "invalid_type" (invalidTypeMsg expected input) none
      some (ctx, .fail i)
  | .litN _ v =>
    if primEq input v then some (ctx, .pass)
    else
      let (ctx, i) :=
        ctx.pushIssue "invalid_type" (invalidTypeMsg v.render input) none
      some (ctx, .fail i)
  | .fileN _ =>
    match input with
    | .file _ => some (ctx, .pass)
    | _ =>
      let (ctx, i) :=
        ctx.pushIssue "invalid_type" (invalidTypeMsg "file" input) none
      some (ctx, .fail i)
  | .objN _ _ =>
    if isObject input then some (ctx, .pass)
    else
      let (ctx, i) :=
        ctx.pushIssue "invalid_type" (invalidTypeMsg "object" input) none
      some (ctx, .fail i)
  | .recN _ _ =>
    if isObject input then some (ctx, .pass)
    else
      let (ctx, i) :=
        ctx.pushIssue "invalid_type" (invalidTypeMsg "record" input) none
      some (ctx, .fail i)
  | .arrN _ _ _ =>
    if isArray input then some (ctx, .pass)
    else
      let (ctx, i) :=
        ctx.pushIssue "invalid_type" (invalidTypeMsg "array" input) none
      some (ctx, .fail i)
  | .unionN _ _ => none

/-- typeof input is object (null, plain objects, arrays and File objects). -/
def typeofIsObject : JSValue → Bool
  | .null => true
  | .obj _ => true
  | .arr _ => true
  | .file _ => true
  | _ => false

/-- coerce(ctx, input) per node kind; none models the undefined return.
String coercion refuses objects; number coercion maps NaN to undefined;
array coercion wraps the input in a one-element array (instance config only,
no options fallback); every other kind inherits the base no-op. -/
def coerceFn (n : Node) (opts : Opts) (input : JSValue) : Option JSValue :=
  match n with
  | .strN _ _ _ co =>
    if co.getD (opts.stringCoerce.getD false)
        && !isNullish input && !typeofIsObject input
    then some (.str (jsToString input))
    else none
  | .numN _ co =>
    if co.getD (opts.numberCoerce.getD false) then
      (jsNumber input).map JSValue.num
    else none
  | .boolN _ co =>
    if co.getD (opts.booleanCoerce.getD false) && !isNullish input then
      some (.bool (jsTruthy input))
    else none
  | .arrN _ co _ =>
    if !isNullish input && co then some (.arr [input]) else none
  | _ => none

/-- clean(ctx, value): a string node trims, an object node deletes the keys
not declared among its properties (in place, on the original object), every
other kind returns the value unchanged. -/
def cleanFn (n : Node) (opts : Opts) (v : JSValue) : JSValue :=
  match n with
  | .strN _ trim _ _ =>
    match v with
    | .str s => .str (trimValue trim opts s)
    | v => v
  | .objN _ props =>
    match v with
    | .obj fields =>
      .obj (fields.filter (fun kv => props.any (fun p => decide (p.1 = kv.1))))
    | v => v
  | _ => v

/-- getChildKeys(value): object nodes list their declared properties
(whether or not present on the value), record nodes the keys of the value,
array nodes the indices of the value; every other kind has no children. -/
def getChildKeys (n : Node) (value : JSValue) : List (PKey × Node) :=
  match n with
  | .objN _ props => props.map (fun kv => (PKey.s kv.1, kv.2))
  | .recN _ vt =>
    match value with
    | .obj fields => fields.map (fun kv => (PKey.s kv.1, vt))
    | _ => []
  | .arrN _ _ item =>
    match value with
    | .arr items => (List.range items.length).map (fun i => (PKey.n (Int.ofNat i), item))
    | _ => []
  | _ => []

/-! ## Core-issue overrides (base.ts tryGetCoreIssueOverride) -/

/-- Run an override callback.  The source also hands the callback the parsed
value, which the modelled override programs never inspect. -/
def runOverrideProg (p : OverrideProg) (ctx : Ctx) : Ctx × (String ⊕ Issue) :=
  match p with
  | .retMsg s => (ctx, .inl s)
  | .retIssueAt code m path =>
    let (ctx, i) := ctx.pushIssue code m path
    (ctx, .inr i)

/-- tryGetCoreIssueOverride: when the failing code has a declared override,
produce the substitute issue.  A string override is wrapped through
ctx.issue(code, message), so it keeps the core code and the current path; a
callback result that is a string is wrapped the same way. -/
def tryGetCoreIssueOverride (ctx : Ctx) (code : String) (c : Common) :
    Ctx × Option Issue :=
  if code = "invalid_type" then
    match c.invalidTypeError with
    | some (.msg s) =>
      let (ctx, i) := ctx.pushIssue "invalid_type" s none
      (ctx, some i)
    | some (.fn p) =>
      match runOverrideProg p ctx with
      | (ctx, .inl s) =>
        let (ctx, i) := ctx.pushIssue "invalid_type" s none
        (ctx, some i)
      | (ctx, .inr i) => (ctx, some i)
    | none => (ctx, none)
  else if code = "required" then
    match c.requiredError with
    | some (.msg s) =>
      let (ctx, i) := ctx.pushIssue "required" s none
      (ctx, some i)
    | some (.fn p) =>
      match runOverrideProg p ctx with
      | (ctx, .inl s) =>
        let (ctx, i) := ctx.pushIssue "required" s none
        (ctx, some i)
      | (ctx, .inr i) => (ctx, some i)
    | none => (ctx, none)
  else (ctx, none)

/-! ## Structural parse phase (base.ts parseInput, types.ts getShadowedType)

The engine recursion takes fuel, decremented on every nested call, keeping
every definition structurally recursive; none stands both for the few
engine throws of the source (UnionType.check, an empty union member list)
and for exhausted fuel.  Each result carries, next to the updated context
and the parsed value, the value the caller-supplied input object has after
the call (inputAfter), tracking the in-place mutations the source performs
on it. -/

structure PRes where
  ctx : Ctx
  value : JSValue
  inputAfter : JSValue
  deriving DecidableEq

/-- The pending work of the structural recursion, defunctionalized so the
engine is one structurally recursive function on its fuel: a node parse
(BaseType.parseInput), the resolution of a union node
(UnionType.getShadowedType), its trial loop over the candidate members, and
the children loop of parseInput. -/
inductive PJob where
  | node (n : Node) (ctx : Ctx) (input : JSValue)
  | shadow (members : List Node) (ctx : Ctx) (input : JSValue)
  | trials (ts : List Node) (ctx : Ctx) (input : JSValue)
  | children (keys : List (PKey × Node)) (ctx : Ctx) (parentVal : JSValue)

/-- The result of each kind of job. -/
inductive POut where
  | res (r : PRes)
  | shadowOut (actual : Node) (input : JSValue)
  | trialOut (chosen : Option Node) (input : JSValue)
  | kidsOut (ctx : Ctx) (value : JSValue) (childAfters : List (PKey × JSValue))
  deriving DecidableEq

/-- The structural parse engine.  The node case is BaseType.parseInput,
following the source step by step: resolve the actual node (union
shadowing), null handling, check with coercion fallback, setInput
bookkeeping, clean or default value, core-issue override, issue recording,
then recursion into children.  The shallow clone of objects and arrays
before the children loop is identity on pure values; its effect, namely
that child writes go to the copy while in-place child mutations stay
visible to the caller, is captured by the jsUpdateExisting fold; when the
value came from array coercion the single child aliases the whole input, so
the input after the call is that child's inputAfter.  The shadow case is
UnionType.getShadowedType (the discriminated list is computed from the
members exactly as the constructor precomputes it; on a null or undefined
input the source would crash inside isObject, a path no claim exercises,
modelled as no discriminated match).  The trials case runs each candidate
member on a clone of the context, keeping the first one that adds no issue
and threading the input through, because a trial parse can mutate it.  The
children case parses each child under the extended path, writes the result
back into the shallow-copied parent, and collects per key the post-parse
state of the original child value. -/
def parseRun : Nat → PJob → Option POut
  | 0, _ => none
  | fuel + 1, .node node ctx input0 =>
    let resolved : Option (Node × JSValue) :=
      match node with
      | .unionN _ members =>
        match parseRun fuel (.shadow members ctx input0) with
        | some (.shadowOut t inp) => some (t, inp)
        | _ => none
      | _ => some (node, input0)
    match resolved with
    | none => none
    | some (actual, input) =>
      let afterCheck : Option (Ctx × Option JSValue × Option Issue × Bool) :=
        if isNullish input then
          match input with
          | .undef =>
            if node.common.isOptional then some (ctx, none, none, false)
            else
              let (ctx, i) := ctx.pushIssue "required" (requiredMsg input) none
              some (ctx, none, some i, false)
          | _ =>
            if node.common.isNullable then some (ctx, none, none, false)
            else
              let (ctx, i) := ctx.pushIssue "required" (requiredMsg input) none
              some (ctx, none, some i, false)
        else
          match checkFn actual ctx input with
          | none => none
          | some (ctx, .pass) => some (ctx, some input, none, false)
          | some (ctx, .fail res) =>
            match coerceFn actual ctx.options input with
            | some c => some (ctx.removeIssues [res], some c, none, true)
            | none => some (ctx, none, some res, false)
      match afterCheck with
      | none => none
      | some (ctx, value?, issue?, coerced) =>
        let ctx := ctx.setInput input issue?.isNone
        let (isDefault, value, inputM) :=
          match value? with
          | some v =>
            let cleaned := cleanFn actual ctx.options v
            (false, cleaned,
              match actual with
              | .objN _ _ => cleaned
              | _ => input)
          | none => (true, defaultValue actual, input)
        let code := (issue?.map Issue.code).getD ""
        let (ctx, ovr?) := tryGetCoreIssueOverride ctx code node.common
        let (ctx, issue?) :=
          match ovr?, issue? with
          | some oi, some i => (ctx.removeIssues [i], some oi)
          | some oi, none => (ctx, some oi)
          | none, i? => (ctx, i?)
        let ctx :=
          match issue? with
          | some i => ctx.addIssues [i]
          | none => ctx
        if isDefault then some (.res ⟨ctx, value, inputM⟩)
        else
          match parseRun fuel (.children (getChildKeys actual value) ctx value) with
          | some (.kidsOut ctx value childAfters) =>
            let inputAfter :=
              if coerced then
                match childAfters with
                | [ka] => ka.2
                | _ => inputM
              else
                childAfters.foldl (fun m ka => jsUpdateExisting m ka.1 ka.2)
                  inputM
            some (.res ⟨ctx, value, inputAfter⟩)
          | _ => none
  | fuel + 1, .shadow members ctx input =>
    let discr := members.filter (fun m => !(getLiteralKeys m).isEmpty)
    let mtch :=
      if isObject input then
        discr.find? (fun m =>
          let keys := getLiteralKeys m
          !keys.isEmpty &&
            keys.all (fun lk => primEq (jsGetStr input lk.key) lk.value))
      else none
    let typesToCheck :=
      match mtch with
      | some t => [t]
      | none =>
        if members.length = discr.length then
          match members with
          | [] => []
          | m :: _ => [m]
        else members
    match typesToCheck with
    | [] => none
    | t0 :: _ =>
      match parseRun fuel (.trials typesToCheck ctx input) with
      | some (.trialOut (some t) inp) => some (.shadowOut t inp)
      | some (.trialOut none inp) => some (.shadowOut t0 inp)
      | _ => none
  | _ + 1, .trials [] _ input => some (.trialOut none input)
  | fuel + 1, .trials (t :: rest) ctx input =>
    let clone := ctx.clone
    match parseRun fuel (.node t clone input) with
    | some (.res r) =>
      if r.ctx.issueCount = ctx.issueCount then
        some (.trialOut (some t) r.inputAfter)
      else parseRun fuel (.trials rest ctx r.inputAfter)
    | _ => none
  | _ + 1, .children [] ctx parentVal => some (.kidsOut ctx parentVal [])
  | fuel + 1, .children ((k, t) :: rest) ctx parentVal =>
    let childIn := jsGet parentVal k
    let saved := ctx.path
    match parseRun fuel (.node t (ctx.setPath (saved ++ [k])) childIn) with
    | some (.res r) =>
      match parseRun fuel
          (.children rest (r.ctx.setPath saved) (jsSet parentVal k r.value)) with
      | some (.kidsOut ctx pv rest_after) =>
        some (.kidsOut ctx pv ((k, r.inputAfter) :: rest_after))
      | _ => none
    | _ => none

/-- BaseType.parseInput at a given fuel. -/
def parseInput (fuel : Nat) (n : Node) (ctx : Ctx) (input : JSValue) :
    Option PRes :=
  match parseRun fuel (.node n ctx input) with
  | some (.res r) => some r
  | _ => none

/-- UnionType.getShadowedType at a given fuel. -/
def getShadowedType (fuel : Nat) (members : List Node) (ctx : Ctx)
    (input : JSValue) : Option (Node × JSValue) :=
  match parseRun fuel (.shadow members ctx input) with
  | some (.shadowOut t inp) => some (t, inp)
  | _ => none

/-! ## Path-tracking proxy (internal.ts getProxy) -/

/-- A proxied view of a value: the value, the path the wrapper was created
for, and whether the value is wrapped at all (only plain objects and arrays
are; primitives are returned bare, so reads on them are plain JavaScript
property access and do not touch the context). -/
structure PV where
  v : JSValue
  path : Path
  wrapped : Bool

def mkPV (v : JSValue) (p : Path) : PV := ⟨v, p, isObjOrArr v⟩

/-- The proxy get trap: reading prop on a wrapped value sets the current
path to the child path (except for the length read on an array, which keeps
the array path) and returns the possibly further wrapped child. -/
def pvGet (ctx : Ctx) (pv : PV) (prop : String) : Ctx × PV :=
  if pv.wrapped then
    let child := jsGetStr pv.v prop
    let childPath := pv.path ++ [keyOrIndex prop]
    let isArrLen := isArray pv.v && prop = "length"
    let ctx := ctx.setPath (if isArrLen then pv.path else childPath)
    (ctx, ⟨child, childPath, isObjOrArr child⟩)
  else (ctx, ⟨.undef, [], false⟩)

/-! ## Refinement execution (base.ts Type.validate / validateAsync) -/

/-- Errors escaping a refinement callback. -/
inductive Thrown where
  | ckErr (key : String)
  | jsErr (msg : String)
  deriving DecidableEq, Repr

/-- The state a running callback sees: the real context (the proxy and the
issue overloads mutate it directly) and the IssueTrackingContext record of
the issues raised through it during this run. -/
structure RefState where
  ctx : Ctx
  newIssues : List Issue
  deriving DecidableEq

/-- An access expression such as data.a.b[2]: a chain of proxy reads
starting from the proxied root value. -/
def accessChain (ctx : Ctx) (root : PV) (props : List String) : Ctx :=
  (props.foldl (fun acc prop => pvGet acc.1 acc.2 prop) (ctx, root)).1

/-- Interpret the callback actions in order; a throw aborts the rest. -/
def runSteps : List RefStep → PV → RefState → RefState × Option Thrown
  | [], _, st => (st, none)
  | step :: rest, root, st =>
    match step with
    | .access props =>
      runSteps rest root { st with ctx := accessChain st.ctx root props }
    | .raiseMsg m p? =>
      let (ctx, i) := st.ctx.pushIssue "custom" m p?
      runSteps rest root ⟨ctx, st.newIssues ++ [i]⟩
    | .raiseCode code m p? =>
      let (ctx, i) := st.ctx.pushIssue code m p?
      runSteps rest root ⟨ctx, st.newIssues ++ [i]⟩
    | .getKey k =>
      if st.ctx.options.hasKey k then runSteps rest root st
      else (st, some (.ckErr k))
    | .throwJs m => (st, some (.jsErr m))

/-- The raw value a callback returns: undefined, or an array of issues. -/
inductive RawRes where
  | undefRes
  | issuesRes (issues : List Issue)

/-- base.ts getIssues: collect the issues out of a validation result. -/
def resultIssues : RawRes → List Issue
  | .undefRes => []
  | .issuesRes l => l

def runProg (p : RefProg) (root : PV) (st : RefState) :
    RefState × Except Thrown RawRes :=
  match runSteps p.steps root st with
  | (st, some e) => (st, .error e)
  | (st, none) =>
    (st, .ok (match p.ret with
      | .unit => .undefRes
      | .raised => .issuesRes st.newIssues))

/-- Type.overrideIssues: remove the collected issues, run the override, wrap
a string result into a custom issue at the override path, and add the single
replacement. -/
def overrideIssues (ctx : Ctx) (issues : List Issue) (ov : OverrideProg)
    (overridePath : Path) : Ctx :=
  let ctx := ctx.removeIssues issues
  match runOverrideProg ov ctx with
  | (ctx, .inl s) =>
    let (ctx, i) := ctx.pushIssue "custom" s (some overridePath)
    ctx.addIssues [i]
  | (ctx, .inr i) => ctx.addIssues [i]

/-- Errors escaping validate: only the ContextKeyError of ctx.get (and the
fuel artifact of the model). -/
inductive VErr where
  | contextKey (key : String)
  | outOfFuel
  deriving DecidableEq, Repr

/-- The loop over a validator list inside withProxy: reset the path, run the
callback on a fresh tracking context, then either propagate a
ContextKeyError, convert any other throw into an exception issue at the
current path, apply the message override, or add the returned issues. -/
def runValidators : List VEntry → PV → Path → Ctx → Except VErr Ctx
  | [], _, _, ctx => .ok ctx
  | e :: rest, root, basePath, ctx =>
    let ctx := ctx.setPath basePath
    match runProg e.prog root ⟨ctx, []⟩ with
    | (_, .error (.ckErr k)) => .error (.contextKey k)
    | (st, .error (.jsErr m)) =>
      let (ctx, _) := st.ctx.pushIssue "exception" (exceptionMsg m) none
      runValidators rest root basePath ctx
    | (st, .ok res) =>
      let issues := resultIssues res
      match e.override with
      | some ov =>
        runValidators rest root basePath
          (overrideIssues st.ctx (issues ++ st.newIssues) ov basePath)
      | none =>
        runValidators rest root basePath (st.ctx.addIssues issues)

/-- Pending validation work: a node (Type.validate or Type.validateAsync,
selected by the flag, the two loops being textually identical in the source
up to awaiting) or the children recursion under withChildPath. -/
inductive VJob where
  | vnode (isAsync : Bool) (n : Node) (ctx : Ctx) (value : JSValue)
  | vkids (isAsync : Bool) (keys : List (PKey × Node)) (ctx : Ctx)
      (value : JSValue)

/-- Type.validate / validateAsync: skip everything when the input record at
the exact current path is missing or failed, otherwise validate the
children, then run the own validator list on the proxied value and restore
the path. -/
def validateRun : Nat → VJob → Except VErr Ctx
  | 0, _ => .error .outOfFuel
  | fuel + 1, .vnode isAsync n ctx value =>
    if ctx.pathHasErrors then .ok ctx
    else
      match validateRun fuel (.vkids isAsync (getChildKeys n value) ctx value) with
      | .error e => .error e
      | .ok ctx =>
        let basePath := ctx.path
        let list :=
          if isAsync then n.common.asyncValidators else n.common.validators
        match runValidators list (mkPV value basePath) basePath ctx with
        | .error e => .error e
        | .ok ctx => .ok (ctx.setPath basePath)
  | _ + 1, .vkids _ [] ctx _ => .ok ctx
  | fuel + 1, .vkids isAsync ((k, t) :: rest) ctx value =>
    let saved := ctx.path
    match validateRun fuel (.vnode isAsync t (ctx.setPath (saved ++ [k])) (jsGet value k)) with
    | .error e => .error e
    | .ok ctx => validateRun fuel (.vkids isAsync rest (ctx.setPath saved) value)

/-- Type.validate at a given fuel. -/
def validate (fuel : Nat) (n : Node) (ctx : Ctx) (value : JSValue) :
    Except VErr Ctx :=
  validateRun fuel (.vnode false n ctx value)

/-- Type.validateAsync at a given fuel. -/
def validateAsync (fuel : Nat) (n : Node) (ctx : Ctx) (value : JSValue) :
    Except VErr Ctx :=
  validateRun fuel (.vnode true n ctx value)

/-! ## Entry points (base.ts Type.safeParse and friends) -/

/-- Errors a parse entry point can raise instead of returning a result. -/
inductive Err where
  | asyncValidatorsPresent
  | contextKey (key : String)
  | engineCrash
  | outOfFuel
  deriving DecidableEq, Repr

/-- The tagged parse result.  On failure the source additionally rebuilds
the per-field parsed-input tree out of the context; no claim consumes it and
it is not modelled. -/
inductive PResult where
  | ok (data : JSValue)
  | fail (issues : List Issue)
  deriving DecidableEq

def makeResult (ctx : Ctx) (value : JSValue) : PResult :=
  if ctx.issues.isEmpty then .ok value else .fail ctx.issues

/-- Type.getParseResult on a fresh context: structural parse, synchronous
validation, then the asynchronous pass when the tree has async validators. -/
def getParseResult (fuel : Nat) (n : Node) (input : JSValue) (opts : Opts) :
    Except Err PResult :=
  let ctx : Ctx := { options := opts }
  match parseInput fuel n ctx input with
  | none => .error .engineCrash
  | some r =>
    match validate fuel n r.ctx r.value with
    | .error (.contextKey k) => .error (.contextKey k)
    | .error .outOfFuel => .error .outOfFuel
    | .ok ctx =>
      if hasAsyncValidators n then
        match validateAsync fuel n ctx r.value with
        | .error (.contextKey k) => .error (.contextKey k)
        | .error .outOfFuel => .error .outOfFuel
        | .ok ctx => .ok (makeResult ctx r.value)
      else .ok (makeResult ctx r.value)

/-- safeParse: reject any tree holding asynchronous validators before doing
anything else. -/
def safeParse (fuel : Nat) (n : Node) (input : JSValue) (opts : Opts) :
    Except Err PResult :=
  if hasAsyncValidators n then .error .asyncValidatorsPresent
  else getParseResult fuel n input opts

/-- safeParseAsync: always allowed. -/
def safeParseAsync (fuel : Nat) (n : Node) (input : JSValue) (opts : Opts) :
    Except Err PResult :=
  getParseResult fuel n input opts

/-! ## Chainable configuration and extensions (base.ts, extend.ts) -/

/-- refine: clone with the callback pushed onto the synchronous list. -/
def Node.refine (n : Node) (prog : RefProg) : Node :=
  n.withCommon
    { n.common with validators := n.common.validators ++ [{ prog := prog }] }

/-- refineAsync: clone with the callback pushed onto the asynchronous
list. -/
def Node.refineAsync (n : Node) (prog : RefProg) : Node :=
  n.withCommon
    { n.common with
      asyncValidators := n.common.asyncValidators ++ [{ prog := prog }] }

def Node.optional (n : Node) : Node :=
  n.withCommon { n.common with isOptional := true }

def Node.nullable (n : Node) : Node :=
  n.withCommon { n.common with isNullable := true }

/-- list[index] = entry after index = findIndex(name) with fallback to the
list length: replace the first entry carrying the name in place, else
append (written recursively, with the same semantics as the index-based
source code). -/
def placeEntry (list : List VEntry) (name : String) (entry : VEntry) :
    List VEntry :=
  match list with
  | [] => [entry]
  | v :: rest =>
    if v.name = some name then entry :: rest
    else v :: placeEntry rest name entry

/-- The entry addExtension stores: the validator under the extension name
with its call parameters, and the override with a string converted to a
callback returning it. -/
def extEntry (validator : RefProg) (name : String) (params : List Prim)
    (override : Option (String ⊕ OverrideProg)) : VEntry :=
  { prog := validator, name := some name, params := some params,
    override :=
      override.map (fun o =>
        match o with
        | .inl s => .retMsg s
        | .inr p => p) }

/-- Type.addExtension: clone, then place the named entry (validator, call
parameters, converted override) into the synchronous or asynchronous list. -/
def Node.addExtension (n : Node) (isAsync : Bool) (name : String)
    (params : List Prim) (override : Option (String ⊕ OverrideProg))
    (validator : RefProg) : Node :=
  let entry := extEntry validator name params override
  let c := n.common
  if isAsync then
    n.withCommon
      { c with asyncValidators := placeEntry c.asyncValidators name entry }
  else
    n.withCommon { c with validators := placeEntry c.validators name entry }

/-- Type.getExtensionParams: the captured parameters from the synchronous
list, else from the asynchronous list, else undefined. -/
def Node.getExtensionParams (n : Node) (name : String) : Option (List Prim) :=
  match (n.common.validators.find?
      (fun v => decide (v.name = some name))).bind VEntry.params with
  | some p => some p
  | none =>
    (n.common.asyncValidators.find?
      (fun v => decide (v.name = some name))).bind VEntry.params

/-! ## Union construction (types.ts UnionType constructor, pukka.ts union) -/

/-- The UnionType constructor: an empty member list throws. -/
def mkUnionType (members : List Node) : Except String Node :=
  if members.isEmpty then .error "UnionType options cannot be empty"
  else .ok (.unionN {} members)

/-- The public factory z.union: construct, then attach the core-issue
overrides via issues(overrides) on the clone. -/
def zUnion (members : List Node)
    (invalidTypeError requiredError : Option CoreOv) : Except String Node :=
  (mkUnionType members).map (fun n =>
    n.withCommon
      { n.common with
        invalidTypeError := invalidTypeError,
        requiredError := requiredError })

/-! ## Basic lemmas about the model -/

theorem Node.common_withCommon (n : Node) (c : Common) :
    (n.withCommon c).common = c := by
  cases n <;> rfl

theorem parseInput_eq_some (fuel : Nat) (n : Node) (ctx : Ctx)
    (input : JSValue) (r : PRes) :
    parseInput fuel n ctx input = some r ↔
      parseRun fuel (.node n ctx input) = some (.res r) := by
  unfold parseInput
  cases h : parseRun fuel (.node n ctx input) with
  | none => simp
  | some out => cases out <;> simp

theorem Ctx.addIssues_nil (ctx : Ctx) : ctx.addIssues [] = ctx := rfl

/-- Adding back an issue that is already in the set is a no-op. -/
theorem Ctx.addIssues_pushed (ctx : Ctx) (code msg : String)
    (path : Option Path) :
    (ctx.pushIssue code msg path).1.addIssues [(ctx.pushIssue code msg path).2]
      = (ctx.pushIssue code msg path).1 := by
  simp only [Ctx.pushIssue, Ctx.addIssues, List.foldl]
  rw [if_pos]
  simp

/-- The number of entries of a validator list registered under a name. -/
def countNamed (l : List VEntry) (name : String) : Nat :=
  match l with
  | [] => 0
  | v :: rest =>
    (if v.name = some name then 1 else 0) + countNamed rest name

theorem countNamed_zero_head {v : VEntry} {rest : List VEntry}
    {name : String} (h : countNamed (v :: rest) name = 0) :
    v.name ≠ some name ∧ countNamed rest name = 0 := by
  by_cases hv : v.name = some name
  · exfalso
    simp [countNamed, hv] at h
  · exact ⟨hv, by simpa [countNamed, hv] using h⟩

theorem placeEntry_of_notFound {l : List VEntry} {name : String}
    (e : VEntry) (h : countNamed l name = 0) :
    placeEntry l name e = l ++ [e] := by
  induction l with
  | nil => rfl
  | cons v rest ih =>
    obtain ⟨hv, hrest⟩ := countNamed_zero_head h
    simp [placeEntry, hv, ih hrest]

theorem placeEntry_replaces {l : List VEntry} {name : String}
    (e1 e2 : VEntry) (h : countNamed l name = 0)
    (he1 : e1.name = some name) :
    placeEntry (l ++ [e1]) name e2 = l ++ [e2] := by
  induction l with
  | nil => simp [placeEntry, he1]
  | cons v rest ih =>
    obtain ⟨hv, hrest⟩ := countNamed_zero_head h
    simp [placeEntry, hv, ih hrest]

theorem countNamed_append_named {l : List VEntry} {name : String}
    (e : VEntry) (h : countNamed l name = 0) (he : e.name = some name) :
    countNamed (l ++ [e]) name = 1 := by
  induction l with
  | nil => simp [countNamed, he]
  | cons v rest ih =>
    obtain ⟨hv, hrest⟩ := countNamed_zero_head h
    simp [countNamed, hv, ih hrest]

theorem find_named_of_count_zero {l : List VEntry} {name : String}
    (h : countNamed l name = 0) :
    l.find? (fun v => decide (v.name = some name)) = none := by
  induction l with
  | nil => rfl
  | cons v rest ih =>
    obtain ⟨hv, hrest⟩ := countNamed_zero_head h
    simp [List.find?, hv, ih hrest]

theorem find_named_append {l : List VEntry} {name : String} (e : VEntry)
    (h : countNamed l name = 0) (he : e.name = some name) :
    (l ++ [e]).find? (fun v => decide (v.name = some name)) = some e := by
  induction l with
  | nil => simp [List.find?, he]
  | cons v rest ih =>
    obtain ⟨hv, hrest⟩ := countNamed_zero_head h
    simp [List.find?, hv, ih hrest]

/-! ## Claims -/

/-- C10: constructing a union type with an empty member list always throws
the error "UnionType options cannot be empty" (both on the raw constructor
and through the public factory), so every union node obtained from the
factory has at least one member, and its defaultValue is the first member's
default value. -/
theorem claim_C10 :
    mkUnionType [] = .error "UnionType options cannot be empty" ∧
    (∀ ov1 ov2, zUnion [] ov1 ov2 = .error "UnionType options cannot be empty") ∧
    (∀ (ts : List Node) (ov1 ov2 : Option CoreOv) (n : Node),
      zUnion ts ov1 ov2 = .ok n →
      ∃ (m : Node) (rest : List Node),
        ts = m :: rest ∧ defaultValue n = defaultValue m) := by
  refine ⟨rfl, fun ov1 ov2 => rfl, ?_⟩
  intro ts ov1 ov2 n h
  cases ts with
  | nil => simp [zUnion, mkUnionType, Except.map] at h
  | cons m rest =>
    refine ⟨m, rest, rfl, ?_⟩
    simp [zUnion, mkUnionType, Except.map] at h
    subst h
    simp [Node.withCommon, defaultValue, headDefault]

/-- C10 witness: a concrete factory-built union has the default of its
first member. -/
theorem claim_C10_witness :
    ∃ (m : Node) (rest : List Node),
      [Node.numN {} none, Node.strN {} none none none] = m :: rest ∧
      defaultValue (.unionN { invalidTypeError := none, requiredError := none }
        [Node.numN {} none, Node.strN {} none none none]) = defaultValue m :=
  claim_C10.2.2 [Node.numN {} none, Node.strN {} none none none] none none
    (.unionN { invalidTypeError := none, requiredError := none }
      [Node.numN {} none, Node.strN {} none none none]) rfl

/-- C9: re-applying a same-named extension replaces the prior entry at its
original position instead of appending: after two applications the relevant
validator list is the original list with exactly one entry appended, holding
the latest arguments; the other list is untouched; exactly one validator is
registered under the name; introspection returns exactly the latest
argument list, and undefined for a node the extension was never applied
to. -/
theorem claim_C9 (n : Node) (name : String) (isAsync : Bool)
    (p1 p2 : List Prim) (ov1 ov2 : Option (String ⊕ OverrideProg))
    (v1 v2 : RefProg)
    (h1 : countNamed n.common.validators name = 0)
    (h2 : countNamed n.common.asyncValidators name = 0) :
    n.getExtensionParams name = none ∧
    (let n1 := n.addExtension isAsync name p1 ov1 v1
     let n2 := n1.addExtension isAsync name p2 ov2 v2
     let L0 := if isAsync then n.common.asyncValidators else n.common.validators
     (if isAsync then n1.common.asyncValidators else n1.common.validators)
        = L0 ++ [extEntry v1 name p1 ov1] ∧
     (if isAsync then n2.common.asyncValidators else n2.common.validators)
        = L0 ++ [extEntry v2 name p2 ov2] ∧
     countNamed
        (if isAsync then n2.common.asyncValidators else n2.common.validators)
        name = 1 ∧
     (if isAsync then n2.common.validators else n2.common.asyncValidators)
        = (if isAsync then n.common.validators else n.common.asyncValidators) ∧
     n2.getExtensionParams name = some p2) := by
  have hname1 : (extEntry v1 name p1 ov1).name = some name := rfl
  refine ⟨?_, ?_⟩
  · simp [Node.getExtensionParams, find_named_of_count_zero h1,
      find_named_of_count_zero h2]
  · cases isAsync with
    | false =>
      have hc1 : (n.addExtension false name p1 ov1 v1).common
          = { n.common with
              validators :=
                n.common.validators ++ [extEntry v1 name p1 ov1] } := by
        simp [Node.addExtension, Node.common_withCommon,
          placeEntry_of_notFound _ h1]
      have hc2 : ((n.addExtension false name p1 ov1 v1).addExtension false
            name p2 ov2 v2).common
          = { n.common with
              validators :=
                n.common.validators ++ [extEntry v2 name p2 ov2] } := by
        simp [Node.addExtension, Node.common_withCommon, hc1,
          placeEntry_of_notFound _ h1,
          placeEntry_replaces (extEntry v1 name p1 ov1)
            (extEntry v2 name p2 ov2) h1 hname1]
      refine ⟨by simp [hc1], by simp [hc2], ?_, by simp [hc2], ?_⟩
      · simp [hc2,
          countNamed_append_named (extEntry v2 name p2 ov2) h1 rfl]
      · simp [Node.getExtensionParams, hc2, find_named_of_count_zero h1,
          find_named_append (extEntry v2 name p2 ov2) h1 rfl, extEntry]
    | true =>
      have hc1 : (n.addExtension true name p1 ov1 v1).common
          = { n.common with
              asyncValidators :=
                n.common.asyncValidators ++ [extEntry v1 name p1 ov1] } := by
        simp [Node.addExtension, Node.common_withCommon,
          placeEntry_of_notFound _ h2]
      have hc2 : ((n.addExtension true name p1 ov1 v1).addExtension true
            name p2 ov2 v2).common
          = { n.common with
              asyncValidators :=
                n.common.asyncValidators ++ [extEntry v2 name p2 ov2] } := by
        simp [Node.addExtension, Node.common_withCommon, hc1,
          placeEntry_of_notFound _ h2,
          placeEntry_replaces (extEntry v1 name p1 ov1)
            (extEntry v2 name p2 ov2) h2 hname1]
      refine ⟨by simp [hc1], by simp [hc2], ?_, by simp [hc2], ?_⟩
      · simp [hc2,
          countNamed_append_named (extEntry v2 name p2 ov2) h2 rfl]
      · simp [Node.getExtensionParams, hc2, find_named_of_count_zero h1,
          find_named_of_count_zero h2,
          find_named_append (extEntry v2 name p2 ov2) h2 rfl, extEntry]

theorem not_isEmpty_iff {α : Type} (l : List α) :
    (!l.isEmpty) = true ↔ l ≠ [] := by
  cases l <;> simp

/-- The claim-side description of a tree containing an asynchronous
refinement anywhere: on the node itself, or on any descendant (object
property, array item type, record value type, union member). -/
inductive AsyncSomewhere : Node → Prop where
  | own (n : Node) : n.common.asyncValidators ≠ [] → AsyncSomewhere n
  | objChild {c : Common} {props : List (String × Node)} {k : String}
      {m : Node} : (k, m) ∈ props → AsyncSomewhere m →
      AsyncSomewhere (.objN c props)
  | arrItem {c : Common} {co : Bool} {item : Node} : AsyncSomewhere item →
      AsyncSomewhere (.arrN c co item)
  | recValue {c : Common} {vt : Node} : AsyncSomewhere vt →
      AsyncSomewhere (.recN c vt)
  | unionMember {c : Common} {ms : List Node} {m : Node} : m ∈ ms →
      AsyncSomewhere m → AsyncSomewhere (.unionN c ms)

mutual

theorem hasAsync_iff :
    ∀ n, hasAsyncValidators n = true ↔ AsyncSomewhere n
  | .strN c t e co => by
    simp only [hasAsyncValidators, not_isEmpty_iff]
    exact ⟨fun h => .own _ h, fun h => by cases h with | own _ hh => exact hh⟩
  | .numN c co => by
    simp only [hasAsyncValidators, not_isEmpty_iff]
    exact ⟨fun h => .own _ h, fun h => by cases h with | own _ hh => exact hh⟩
  | .boolN c co => by
    simp only [hasAsyncValidators, not_isEmpty_iff]
    exact ⟨fun h => .own _ h, fun h => by cases h with | own _ hh => exact hh⟩
  | .enumN c vs => by
    simp only [hasAsyncValidators, not_isEmpty_iff]
    exact ⟨fun h => .own _ h, fun h => by cases h with | own _ hh => exact hh⟩
  | .litN c v => by
    simp only [hasAsyncValidators, not_isEmpty_iff]
    exact ⟨fun h => .own _ h, fun h => by cases h with | own _ hh => exact hh⟩
  | .fileN c => by
    simp only [hasAsyncValidators, not_isEmpty_iff]
    exact ⟨fun h => .own _ h, fun h => by cases h with | own _ hh => exact hh⟩
  | .objN c props => by
    simp only [hasAsyncValidators, Bool.or_eq_true, not_isEmpty_iff,
      anyAsyncProps_iff props]
    constructor
    · rintro (h | ⟨kv, hmem, hkv⟩)
      · exact .own _ h
      · exact .objChild (k := kv.1) (m := kv.2) (by simpa using hmem) hkv
    · intro h
      cases h with
      | own _ hh => exact .inl hh
      | objChild hmem hm => exact .inr ⟨_, hmem, hm⟩
  | .arrN c co item => by
    simp only [hasAsyncValidators, Bool.or_eq_true, not_isEmpty_iff,
      hasAsync_iff item]
    constructor
    · rintro (h | h)
      · exact .own _ h
      · exact .arrItem h
    · intro h
      cases h with
      | own _ hh => exact .inl hh
      | arrItem hm => exact .inr hm
  | .recN c vt => by
    simp only [hasAsyncValidators, Bool.or_eq_true, not_isEmpty_iff,
      hasAsync_iff vt]
    constructor
    · rintro (h | h)
      · exact .own _ h
      · exact .recValue h
    · intro h
      cases h with
      | own _ hh => exact .inl hh
      | recValue hm => exact .inr hm
  | .unionN c ms => by
    simp only [hasAsyncValidators, Bool.or_eq_true, not_isEmpty_iff,
      anyAsyncList_iff ms]
    constructor
    · rintro (h | ⟨m, hmem, hm⟩)
      · exact .own _ h
      · exact .unionMember hmem hm
    · intro h
      cases h with
      | own _ hh => exact .inl hh
      | unionMember hmem hm => exact .inr ⟨_, hmem, hm⟩

theorem anyAsyncProps_iff :
    ∀ props, anyAsyncProps props = true ↔ ∃ kv ∈ props, AsyncSomewhere kv.2
  | [] => by simp [anyAsyncProps]
  | kv :: rest => by
    simp [anyAsyncProps, hasAsync_iff kv.2, anyAsyncProps_iff rest]

theorem anyAsyncList_iff :
    ∀ ms, anyAsyncList ms = true ↔ ∃ m ∈ ms, AsyncSomewhere m
  | [] => by simp [anyAsyncList]
  | m :: rest => by
    simp [anyAsyncList, hasAsync_iff m, anyAsyncList_iff rest]

end

/-- getParseResult never raises the async-validators error: only safeParse
does, before anything else. -/
theorem getParseResult_no_async_error (fuel : Nat) (n : Node)
    (input : JSValue) (opts : Opts) :
    getParseResult fuel n input opts ≠ .error .asyncValidatorsPresent := by
  intro h
  simp only [getParseResult] at h
  rcases hp : parseInput fuel n { options := opts } input with _ | r <;>
    rw [hp] at h <;> (try dsimp only at h)
  · simp at h
  · rcases hv : validate fuel n r.ctx r.value with e | ctx <;> rw [hv] at h <;>
      (try dsimp only at h)
    · cases e <;> simp at h
    · by_cases ha : hasAsyncValidators n = true
      · rw [if_pos ha] at h
        rcases hva : validateAsync fuel n ctx r.value with e | ctx2 <;>
          rw [hva] at h <;> (try dsimp only at h)
        · cases e <;> simp at h
        · simp at h
      · rw [if_neg (by simpa using ha)] at h
        simp at h

/-- C6: safeParse raises an error, before attempting any parsing, exactly
when the schema tree contains an asynchronous refinement anywhere, on the
root or any descendant; safeParseAsync never raises for this reason;
hasAsyncValidators is exactly that tree-walk. -/
theorem claim_C6 (n : Node) :
    (hasAsyncValidators n = true ↔ AsyncSomewhere n) ∧
    (∀ (fuel : Nat) (input : JSValue) (opts : Opts),
      (safeParse fuel n input opts = .error .asyncValidatorsPresent ↔
        AsyncSomewhere n) ∧
      safeParseAsync fuel n input opts ≠ .error .asyncValidatorsPresent) := by
  have hiff := hasAsync_iff n
  refine ⟨hiff, fun fuel input opts => ⟨⟨?_, ?_⟩, ?_⟩⟩
  · intro heq
    by_cases h : hasAsyncValidators n = true
    · exact hiff.mp h
    · exfalso
      unfold safeParse at heq
      rw [if_neg (by simpa using h)] at heq
      exact getParseResult_no_async_error fuel n input opts heq
  · intro hsome
    unfold safeParse
    rw [if_pos (hiff.mpr hsome)]
  · intro heq
    exact getParseResult_no_async_error fuel n input opts heq

/-- C6 witness: a concrete object schema whose property carries an
asynchronous refinement is rejected by the theorem's characterization. -/
theorem claim_C6_witness :
    hasAsyncValidators
        (.objN {} [("email", (Node.strN {} none none none).refineAsync
          ⟨[.raiseMsg "taken" none], .unit⟩)]) = true ↔
      AsyncSomewhere
        (.objN {} [("email", (Node.strN {} none none none).refineAsync
          ⟨[.raiseMsg "taken" none], .unit⟩)]) :=
  (claim_C6 (.objN {} [("email", (Node.strN {} none none none).refineAsync
    ⟨[.raiseMsg "taken" none], .unit⟩)])).1

/-- A plain string node with no per-instance configuration, shared by the
concrete schemas below. -/
def strPlain : Node := .strN {} none none none

/-- C5 counterexample schema: property a raises an issue with the explicit
path of its sibling b; b carries its own marker refinement. -/
def c5schema : Node :=
  .objN {}
    [("a", Node.refine strPlain ⟨[.raiseMsg "cross" (some [.s "b"])], .unit⟩),
     ("b", Node.refine strPlain ⟨[.raiseMsg "marker" none], .unit⟩)]

/-- C5 counterexample: the claim says the refinement phase of b is skipped
exactly when an issue already exists at the exact path of b when that phase
begins.  Here the refinement of the sibling a records the issue cross at
the path of b (id 0, so before the phase of b starts), yet the refinement
of b still runs and records marker at that same path: an existing issue at
the exact path does not suppress the refinements, only the structural
parsed flag does. -/
theorem claim_C5_cex :
    safeParse 12 c5schema (.obj [("a", .str "x"), ("b", .str "y")]) {}
      = .ok (.fail
        [⟨0, [.s "b"], "custom", "cross"⟩,
         ⟨1, [.s "b"], "custom", "marker"⟩]) := by
  decide

/-- C5 amended: the refinement phase of a node (synchronous and
asynchronous) is skipped exactly when the per-path input record at the
exact current path is missing or marked as structurally failed; the
suppression test reads only the input map and the current path, never the
issue set, so issues already recorded at the node's exact path (or at a
descendant's) do not by themselves suppress the refinements. -/
theorem claim_C5 (fuel : Nat) (n : Node) (ctx : Ctx) (v : JSValue)
    (h : ctx.pathHasErrors = true) :
    validate (fuel + 1) n ctx v = .ok ctx ∧
    validateAsync (fuel + 1) n ctx v = .ok ctx ∧
    (∀ issues2 : List Issue,
      ({ ctx with issues := issues2 } : Ctx).pathHasErrors
        = ctx.pathHasErrors) := by
  refine ⟨?_, ?_, fun issues2 => rfl⟩ <;>
    simp [validate, validateAsync, validateRun, h]

/-- C5 witness: a context whose input map has no record at the current path
skips both refinement phases. -/
theorem claim_C5_witness :
    validate 4 strPlain { path := [.s "x"] } (.str "") =
      .ok { path := [.s "x"] } ∧
    validateAsync 4 strPlain { path := [.s "x"] } (.str "") =
      .ok { path := [.s "x"] } ∧
    (∀ issues2 : List Issue,
      ({ path := [.s "x"], issues := issues2 } : Ctx).pathHasErrors
        = ({ path := [.s "x"] } : Ctx).pathHasErrors) :=
  claim_C5 3 strPlain { path := [.s "x"] } (.str "") (by decide)

/-- C4 counterexample schema: the refinement reads data.name through the
proxied view (moving the current path to ["name"]) and then throws an
ordinary error. -/
def c4schema : Node :=
  Node.refine (.objN {} [("name", strPlain)])
    ⟨[.access ["name"], .throwJs "boom"], .unit⟩

/-- C4 counterexample: the claim says a non-ContextKeyError thrown by a
refinement is converted into an exception issue at the node's own path
(here the root, []).  The refinement of the root accessed the field name
before throwing, and the exception issue is recorded at ["name"], the
current path at the moment of the throw, not at the node's own path. -/
theorem claim_C4_cex :
    safeParse 10 c4schema (.obj [("name", .str "x")]) {}
      = .ok (.fail [⟨0, [.s "name"], "exception", "Exception: boom"⟩]) := by
  decide

/-- C4 amended: a ContextKeyError thrown by a synchronous or asynchronous
refinement callback propagates unchanged out of the validator loop and out
of safeParse / safeParseAsync; any other thrown error is caught and
converted into an issue with code exception recorded at the context's
current path at the time of the throw (the node's own path when the
callback accessed no field beforehand, since the path is reset before each
refinement), and the loop continues with the remaining refinements. -/
theorem claim_C4 :
    (∀ (e : VEntry) (rest : List VEntry) (root : PV) (basePath : Path)
        (ctx : Ctx) (st : RefState) (k : String),
      runProg e.prog root ⟨ctx.setPath basePath, []⟩ = (st, .error (.ckErr k)) →
      runValidators (e :: rest) root basePath ctx = .error (.contextKey k)) ∧
    (∀ (e : VEntry) (rest : List VEntry) (root : PV) (basePath : Path)
        (ctx : Ctx) (st : RefState) (m : String),
      runProg e.prog root ⟨ctx.setPath basePath, []⟩ = (st, .error (.jsErr m)) →
      runValidators (e :: rest) root basePath ctx
        = runValidators rest root basePath
            (st.ctx.pushIssue "exception" (exceptionMsg m) none).1 ∧
      (st.ctx.pushIssue "exception" (exceptionMsg m) none).2.path
        = st.ctx.path ∧
      (st.ctx.pushIssue "exception" (exceptionMsg m) none).2.code
        = "exception") ∧
    (∀ (fuel : Nat) (n : Node) (input : JSValue) (opts : Opts) (r : PRes)
        (k : String),
      hasAsyncValidators n = false →
      parseInput fuel n { options := opts } input = some r →
      validate fuel n r.ctx r.value = .error (.contextKey k) →
      safeParse fuel n input opts = .error (.contextKey k)) ∧
    (∀ (fuel : Nat) (n : Node) (input : JSValue) (opts : Opts) (r : PRes)
        (ctx2 : Ctx) (k : String),
      parseInput fuel n { options := opts } input = some r →
      validate fuel n r.ctx r.value = .ok ctx2 →
      hasAsyncValidators n = true →
      validateAsync fuel n ctx2 r.value = .error (.contextKey k) →
      safeParseAsync fuel n input opts = .error (.contextKey k)) := by
  refine ⟨?_, ?_, ?_, ?_⟩
  · intro e rest root basePath ctx st k h
    simp only [runValidators]
    rw [h]
  · intro e rest root basePath ctx st m h
    refine ⟨?_, rfl, rfl⟩
    simp only [runValidators]
    rw [h]
  · intro fuel n input opts r k ha hp hv
    simp only [safeParse, ha, Bool.false_eq_true, if_false, getParseResult]
    rw [hp]
    dsimp only
    rw [hv]
  · intro fuel n input opts r ctx2 k hp hv ha hva
    simp only [safeParseAsync, getParseResult]
    rw [hp]
    dsimp only
    rw [hv]
    simp only [ha, if_true]
    rw [hva]

/-- C4 witness: a concrete schema whose refinement calls ctx.get with a
missing key makes safeParse rethrow the ContextKeyError unchanged. -/
theorem claim_C4_witness :
    safeParse 5 (Node.refine strPlain ⟨[.getKey "foo"], .unit⟩) (.str "") {}
      = .error (.contextKey "foo") :=
  claim_C4.2.2.1 5 (Node.refine strPlain ⟨[.getKey "foo"], .unit⟩) (.str "")
    {} ⟨⟨[], [("", ⟨.str "", true⟩)], [], 0, {}⟩, .str "", .str ""⟩ "foo"
    (by decide) (by decide) (by decide)

/-- C2 witness value: an object whose field a holds an object whose field b
holds an array with at least three items. -/
def c2val : JSValue :=
  .obj [("a", .obj [("b", .arr [.str "x", .str "y", .str "z"])])]

/-- C2: inside a refinement callback, reading data.a.b[2] through the
path-tracking view (the index arriving at the proxy as the string property
2 and mapped back to a numeric key) and then raising an issue with no
explicit path yields exactly one new issue whose path is ["a","b",2], the
path of the most recently accessed field, which is also the context's
current path afterwards.  The hypotheses say each intermediate value is an
object or array, so the proxy keeps wrapping (a primitive read ends the
tracking in the source too). -/
theorem claim_C2 (ctx : Ctx) (v : JSValue) (m : String)
    (h1 : isObjOrArr v = true)
    (h2 : isObjOrArr (jsGetStr v "a") = true)
    (h3 : isObjOrArr (jsGetStr (jsGetStr v "a") "b") = true) :
    runSteps [.access ["a", "b", "2"], .raiseMsg m none] (mkPV v []) ⟨ctx, []⟩
      = (⟨{ ctx with
              path := [.s "a", .s "b", .n 2],
              issues := ctx.issues
                ++ [⟨ctx.nextId, [.s "a", .s "b", .n 2], "custom", m⟩],
              nextId := ctx.nextId + 1 },
          [⟨ctx.nextId, [.s "a", .s "b", .n 2], "custom", m⟩]⟩, none) := by
  have ka : keyOrIndex "a" = PKey.s "a" := by decide
  have kb : keyOrIndex "b" = PKey.s "b" := by decide
  have k2 : keyOrIndex "2" = PKey.n 2 := by decide
  simp only [runSteps, accessChain, List.foldl, mkPV, pvGet, h1, h2, h3,
    if_true, ka, kb, k2, Ctx.setPath, Ctx.pushIssue, Option.getD_none,
    List.nil_append, List.cons_append, List.append_nil, isArray,
    String.reduceEq, Bool.and_false, Bool.false_eq_true, if_false,
    decide_False]

/-- C2 witness: at the concrete nested value, reading data.a.b[2] and then
raising the issue bad with no explicit path records it at [a, b, 2]. -/
theorem claim_C2_witness :
    isObjOrArr c2val = true ∧
    isObjOrArr (jsGetStr c2val "a") = true ∧
    isObjOrArr (jsGetStr (jsGetStr c2val "a") "b") = true ∧
    runSteps [.access ["a", "b", "2"], .raiseMsg "bad" none] (mkPV c2val [])
        ⟨{}, []⟩
      = (⟨{ path := [.s "a", .s "b", .n 2],
            issues := [⟨0, [.s "a", .s "b", .n 2], "custom", "bad"⟩],
            nextId := 1 },
          [⟨0, [.s "a", .s "b", .n 2], "custom", "bad"⟩]⟩, none) :=
  ⟨by decide, by decide, by decide,
   claim_C2 {} c2val "bad" (by decide) (by decide) (by decide)⟩

/-- The proxy get trap never touches the issue set or the id counter. -/
theorem pvGet_ctx (ctx : Ctx) (pv : PV) (prop : String) :
    (pvGet ctx pv prop).1.issues = ctx.issues ∧
    (pvGet ctx pv prop).1.nextId = ctx.nextId := by
  unfold pvGet
  by_cases h : pv.wrapped = true <;> simp [h, Ctx.setPath]

/-- A chain of proxy reads never touches the issue set or the id counter. -/
theorem accessChain_ctx (props : List String) : ∀ (ctx : Ctx) (root : PV),
    (accessChain ctx root props).issues = ctx.issues ∧
    (accessChain ctx root props).nextId = ctx.nextId := by
  induction props with
  | nil => intro ctx root; exact ⟨rfl, rfl⟩
  | cons p ps ih =>
    intro ctx root
    have h := pvGet_ctx ctx root p
    have h2 := ih (pvGet ctx root p).1 (pvGet ctx root p).2
    have he : accessChain ctx root (p :: ps)
        = accessChain (pvGet ctx root p).1 (pvGet ctx root p).2 ps := rfl
    rw [he]
    exact ⟨h2.1.trans h.1, h2.2.trans h.2⟩

/-- Running callback steps only appends issues (the tracked ones), and
every appended issue carries a fresh id. -/
theorem runSteps_track (steps : List RefStep) (root : PV) :
    ∀ (ctx0 : Ctx) (nis : List Issue) (st : RefState) (th : Option Thrown),
      runSteps steps root ⟨ctx0, nis⟩ = (st, th) →
      ∃ L : List Issue,
        st.ctx.issues = ctx0.issues ++ L ∧
        st.newIssues = nis ++ L ∧
        ∀ i ∈ L, ctx0.nextId ≤ i.id := by
  induction steps with
  | nil =>
    intro ctx0 nis st th h
    simp only [runSteps] at h
    cases h
    exact ⟨[], by simp, by simp, by simp⟩
  | cons step rest ih =>
    intro ctx0 nis st th h
    cases step with
    | access props =>
      simp only [runSteps] at h
      obtain ⟨L, e1, e2, e3⟩ := ih _ _ _ _ h
      obtain ⟨hA1, hA2⟩ := accessChain_ctx props ctx0 root
      refine ⟨L, ?_, e2, ?_⟩
      · rw [hA1] at e1
        exact e1
      · intro i hi
        have h3 := e3 i hi
        rw [hA2] at h3
        exact h3
    | raiseMsg m p? =>
      simp only [runSteps, Ctx.pushIssue] at h
      obtain ⟨L, e1, e2, e3⟩ := ih _ _ _ _ h
      refine ⟨⟨ctx0.nextId, p?.getD ctx0.path, "custom", m⟩ :: L, ?_, ?_, ?_⟩
      · rw [e1]; simp
      · rw [e2]; simp
      · intro i hi
        rcases List.mem_cons.mp hi with h' | h'
        · subst h'; exact le_refl _
        · have := e3 i h'; dsimp only at this; omega
    | raiseCode code m p? =>
      simp only [runSteps, Ctx.pushIssue] at h
      obtain ⟨L, e1, e2, e3⟩ := ih _ _ _ _ h
      refine ⟨⟨ctx0.nextId, p?.getD ctx0.path, code, m⟩ :: L, ?_, ?_, ?_⟩
      · rw [e1]; simp
      · rw [e2]; simp
      · intro i hi
        rcases List.mem_cons.mp hi with h' | h'
        · subst h'; exact le_refl _
        · have := e3 i h'; dsimp only at this; omega
    | getKey k =>
      simp only [runSteps] at h
      by_cases hk : ctx0.options.hasKey k = true
      · rw [if_pos hk] at h
        exact ih _ _ _ _ h
      · rw [if_neg hk] at h
        cases h
        exact ⟨[], by simp, by simp, by simp⟩
    | throwJs m =>
      simp only [runSteps] at h
      cases h
      exact ⟨[], by simp, by simp, by simp⟩

/-- The single replacement issue an override produces: a string override is
wrapped at the captured base path (the node's own path); a callback
override building its own issue chooses its own path, falling back to the
context's current path when it passes none. -/
def replacementIssue (ov : OverrideProg) (nid : Nat) (curPath basePath : Path) :
    Issue :=
  match ov with
  | .retMsg s => ⟨nid, basePath, "custom", s⟩
  | .retIssueAt code m p? => ⟨nid, p?.getD curPath, code, m⟩

/-- overrideIssues on a context whose issue list splits into old issues
(small ids) and freshly raised ones (large ids): the fresh ones are all
removed, the old ones all survive, and exactly the single replacement is
appended. -/
theorem overrideIssues_fresh (ctx : Ctx) (orig L R : List Issue)
    (ov : OverrideProg) (basePath : Path) (nid : Nat)
    (hwf : ∀ i ∈ orig, i.id < nid)
    (hfresh : ∀ i ∈ L, nid ≤ i.id)
    (hR : ∀ i, i ∈ R ↔ i ∈ L)
    (hiss : ctx.issues = orig ++ L) :
    overrideIssues ctx R ov basePath
      = { ctx with
          issues := orig
            ++ [replacementIssue ov ctx.nextId ctx.path basePath],
          nextId := ctx.nextId + 1 } := by
  have hfilter : ctx.issues.filter
      (fun j => !(R.any (fun i => decide (i.id = j.id)))) = orig := by
    rw [hiss, List.filter_append]
    have h1 : orig.filter
        (fun j => !(R.any (fun i => decide (i.id = j.id)))) = orig := by
      apply List.filter_eq_self.mpr
      intro j hj
      simp only [Bool.not_eq_true', List.any_eq_false]
      intro i hiR
      have hi := hfresh i ((hR i).mp hiR)
      have hj2 := hwf j hj
      have hne : ¬(i.id = j.id) := by omega
      simp [hne]
    have h2 : L.filter
        (fun j => !(R.any (fun i => decide (i.id = j.id)))) = [] := by
      apply List.filter_eq_nil_iff.mpr
      intro j hj
      have hjR : R.any (fun i => decide (i.id = j.id)) = true :=
        List.any_eq_true.mpr ⟨j, (hR j).mpr hj, by simp⟩
      simp [hjR]
    rw [h1, h2, List.append_nil]
  cases ov with
  | retMsg s =>
    simp only [overrideIssues, runOverrideProg, Ctx.removeIssues,
      Ctx.pushIssue, Ctx.addIssues, List.foldl, replacementIssue,
      Option.getD_some]
    rw [hfilter]
    simp
  | retIssueAt code m p? =>
    simp only [overrideIssues, runOverrideProg, Ctx.removeIssues,
      Ctx.pushIssue, Ctx.addIssues, List.foldl, replacementIssue]
    rw [hfilter]
    simp

/-- C7: when a refinement entry carries a message override and its callback
runs without throwing, the validator loop removes every issue the callback
raised during its run and appends exactly one replacement issue.  A string
override lands at the node's own path (the captured base path); but a
callback override that builds a full issue picks its own path (its explicit
path argument, or the current proxy path when it passes none), so the
single replacement is not in general at the node's own path. -/
theorem claim_C7 (e : VEntry) (rest : List VEntry) (root : PV)
    (basePath : Path) (ctx : Ctx) (st : RefState) (ov : OverrideProg)
    (hwf : ∀ i ∈ ctx.issues, i.id < ctx.nextId)
    (hov : e.override = some ov)
    (hrun : runSteps e.prog.steps root ⟨ctx.setPath basePath, []⟩
      = (st, none)) :
    runValidators (e :: rest) root basePath ctx
      = runValidators rest root basePath
          { st.ctx with
              issues := ctx.issues
                ++ [replacementIssue ov st.ctx.nextId st.ctx.path basePath],
              nextId := st.ctx.nextId + 1 } ∧
    ∀ s, ov = .retMsg s →
      replacementIssue ov st.ctx.nextId st.ctx.path basePath
        = ⟨st.ctx.nextId, basePath, "custom", s⟩ := by
  obtain ⟨L, hLiss, hLnew, hLfresh⟩ :=
    runSteps_track e.prog.steps root (ctx.setPath basePath) [] st none hrun
  rw [List.nil_append] at hLnew
  constructor
  · have hp : runProg e.prog root ⟨ctx.setPath basePath, []⟩
        = (st, .ok (match e.prog.ret with
            | .unit => .undefRes
            | .raised => .issuesRes st.newIssues)) := by
      simp only [runProg]
      rw [hrun]
    simp only [runValidators]
    rw [hp]
    dsimp only
    rw [hov]
    dsimp only
    congr 1
    apply overrideIssues_fresh st.ctx ctx.issues L _ ov basePath ctx.nextId
      hwf (fun i hi => hLfresh i hi)
    · intro i
      cases hret : e.prog.ret <;>
        simp [resultIssues, hLnew, List.mem_append, or_self]
    · exact hLiss
  · intro s hs
    subst hs
    rfl

/-- C7 counterexample data: an override callback that returns a full issue
with the explicit path [weird]. -/
def c7ov : OverrideProg := .retIssueAt "custom" "overridden" (some [.s "weird"])

/-- C7 counterexample entry: a refinement raising two issues, carrying the
issue-returning override. -/
def c7entry : VEntry :=
  ⟨⟨[.raiseMsg "one" none, .raiseMsg "two" none], .unit⟩, none, none,
   some c7ov⟩

/-- C7 counterexample schema: a string node with that single refinement. -/
def c7node : Node := .strN { validators := [c7entry] } none none none

/-- C7 snapshot of the callback run on the empty root context: both raised
issues are recorded and tracked, nothing thrown. -/
def c7st : RefState :=
  ⟨⟨[], [], [⟨0, [], "custom", "one"⟩, ⟨1, [], "custom", "two"⟩], 2, {}⟩,
   [⟨0, [], "custom", "one"⟩, ⟨1, [], "custom", "two"⟩]⟩

/-- C7 counterexample: the refinement raised two issues at the node's own
path [], the override removed both and added exactly one replacement, but
the replacement sits at the path [weird] chosen by the override callback,
not at the node's own path, contradicting the claim's at-the-node's-own-path
clause (while confirming the remove-and-replace-once behaviour). -/
theorem claim_C7_cex :
    safeParse 8 c7node (.str "v") {}
      = .ok (.fail [⟨2, [.s "weird"], "custom", "overridden"⟩]) := by
  decide

/-- C7 witness: at the concrete entry, the loop replaces the two raised
issues by the single override-produced issue at its chosen path. -/
theorem claim_C7_witness :
    (∀ i ∈ ({} : Ctx).issues, i.id < ({} : Ctx).nextId) ∧
    c7entry.override = some c7ov ∧
    runSteps c7entry.prog.steps (mkPV (.str "v") [])
        ⟨({} : Ctx).setPath [], []⟩ = (c7st, none) ∧
    (runValidators [c7entry] (mkPV (.str "v") []) [] {}
        = runValidators [] (mkPV (.str "v") []) []
            { c7st.ctx with
                issues := ({} : Ctx).issues
                  ++ [replacementIssue c7ov c7st.ctx.nextId c7st.ctx.path []],
                nextId := c7st.ctx.nextId + 1 } ∧
      ∀ s, c7ov = .retMsg s →
        replacementIssue c7ov c7st.ctx.nextId c7st.ctx.path []
          = ⟨c7st.ctx.nextId, [], "custom", s⟩) :=
  ⟨by decide, by decide, by decide,
   claim_C7 c7entry [] (mkPV (.str "v") []) [] {} c7st c7ov
     (by decide) (by decide) (by decide)⟩

/-- The leaf (scalar) node kinds: string, number, boolean, enum, literal
and file, the ones with no children. -/
def Node.isLeaf : Node → Bool
  | .strN .. => true
  | .numN .. => true
  | .boolN .. => true
  | .enumN .. => true
  | .litN .. => true
  | .fileN .. => true
  | _ => false

/-- On a leaf node, a passing check leaves the context untouched. -/
theorem checkFn_leaf_pass (n : Node) (ctx : Ctx) (input : JSValue)
    (ctx1 : Ctx) (hl : n.isLeaf = true)
    (h : checkFn n ctx input = some (ctx1, .pass)) : ctx1 = ctx := by
  cases n <;> simp only [Node.isLeaf] at hl <;>
    simp only [checkFn, Ctx.pushIssue] at h <;>
    (try split at h) <;> (try split at h) <;> simp_all

/-- On a leaf node, a failing check pushes exactly one issue, at the
context's current path, with code invalid_type or required. -/
theorem checkFn_leaf_fail (n : Node) (ctx : Ctx) (input : JSValue)
    (ctx1 : Ctx) (i : Issue) (hl : n.isLeaf = true)
    (h : checkFn n ctx input = some (ctx1, .fail i)) :
    ctx1 = { ctx with issues := ctx.issues ++ [i], nextId := ctx.nextId + 1 } ∧
    i.id = ctx.nextId ∧ i.path = ctx.path ∧
    (i.code = "invalid_type" ∨ i.code = "required") := by
  cases n <;> simp [Node.isLeaf] at hl <;>
    simp only [checkFn, Ctx.pushIssue] at h <;>
    (try split at h) <;> (try split at h) <;>
    simp only [Option.some.injEq, Prod.mk.injEq] at h <;>
    obtain ⟨h1, h2⟩ := h <;> subst h1 <;>
    (first
      | (injection h2 with h3
         subst h3
         simp)
      | injection h2)

set_option maxHeartbeats 1000000 in
/-- C1 amended: for a leaf node and a non-nullish input, when check passes
parseInput hands back the cleaned input with no new issue; when check fails
and coercion yields nothing, parseInput falls back to the node's default
value, and the single recorded issue is the invalid_type or required issue
created at the exact current path — provided the node carries no core-issue
override, which (as the counterexample shows) may replace that issue by one
of arbitrary code and path. -/
theorem claim_C1 :
    (∀ (fuel : Nat) (n : Node) (ctx : Ctx) (input : JSValue) (ctx1 : Ctx),
      n.isLeaf = true → isNullish input = false →
      checkFn n ctx input = some (ctx1, .pass) →
      ctx1 = ctx ∧
      parseInput (fuel + 2) n ctx input
        = some ⟨ctx.setInput input true,
            cleanFn n ctx.options input, input⟩) ∧
    (∀ (fuel : Nat) (n : Node) (ctx : Ctx) (input : JSValue) (ctx1 : Ctx)
        (i : Issue),
      n.isLeaf = true → isNullish input = false →
      checkFn n ctx input = some (ctx1, .fail i) →
      coerceFn n ctx.options input = none →
      n.common.invalidTypeError = none →
      n.common.requiredError = none →
      ctx1.issues = ctx.issues ++ [i] ∧
      i.path = ctx.path ∧
      (i.code = "invalid_type" ∨ i.code = "required") ∧
      parseInput (fuel + 1) n ctx input
        = some ⟨ctx1.setInput input false, defaultValue n, input⟩) := by
  constructor
  · intro fuel n ctx input ctx1 hl hnn hpass
    have hc := checkFn_leaf_pass n ctx input ctx1 hl hpass
    subst hc
    refine ⟨rfl, ?_⟩
    cases n <;> simp [Node.isLeaf] at hl <;>
      simp [parseInput, parseRun, hnn, hpass, getChildKeys,
        tryGetCoreIssueOverride, cleanFn, Ctx.setInput]
  · intro fuel n ctx input ctx1 i hl hnn hfail hco hov1 hov2
    obtain ⟨hc, hid, hpath, hcode⟩ :=
      checkFn_leaf_fail n ctx input ctx1 i hl hfail
    subst hc
    refine ⟨by simp, hpath, hcode, ?_⟩
    rcases hcode with hcode | hcode <;>
      cases n <;> simp [Node.isLeaf] at hl <;>
        simp [parseInput, parseRun, hnn, hfail, hco, hov1, hov2, hcode,
          getChildKeys, tryGetCoreIssueOverride, Ctx.setInput, Ctx.addIssues,
          List.any_append] <;>
        exact ⟨i, Or.inr rfl, rfl⟩

/-- C1 counterexample schema: a string node whose invalid_type core issue is
overridden by a callback building an issue with the custom code invalid. -/
def c1node : Node :=
  .strN
    { invalidTypeError :=
        some (.fn (.retIssueAt "invalid" "Invalid name" none)) }
    none none none

/-- C1 counterexample: a non-null number fed to the overridden string node
fails check with no coercion path, and parseInput does return the default
value — but the single recorded issue has code invalid, neither
invalid_type nor required, because the core-issue override callback
replaced it. -/
theorem claim_C1_cex :
    parseInput 2 c1node {} (.num 1)
      = some ⟨⟨[], [("", ⟨.num 1, false⟩)],
          [⟨1, [], "invalid", "Invalid name"⟩], 2, {}⟩,
          .str "", .num 1⟩ := by
  decide

/-- C1 witness: the pass case on a plain string node (trimming clean), and
the fail case on a plain number node fed a string. -/
theorem claim_C1_witness :
    (({} : Ctx) = {} ∧
     parseInput 2 strPlain {} (.str " x ")
       = some ⟨({} : Ctx).setInput (.str " x ") true,
           cleanFn strPlain ({} : Ctx).options (.str " x "), .str " x "⟩) ∧
    (({ issues := [⟨0, [], "invalid_type",
          "Expected: number, Received: a"⟩], nextId := 1 } : Ctx).issues
        = ({} : Ctx).issues
          ++ [⟨0, [], "invalid_type", "Expected: number, Received: a"⟩] ∧
     (⟨0, [], "invalid_type", "Expected: number, Received: a"⟩ : Issue).path
        = ({} : Ctx).path ∧
     ((⟨0, [], "invalid_type", "Expected: number, Received: a"⟩ : Issue).code
          = "invalid_type" ∨
      (⟨0, [], "invalid_type", "Expected: number, Received: a"⟩ : Issue).code
          = "required") ∧
     parseInput 1 (.numN {} none) {} (.str "a")
       = some ⟨({ issues := [⟨0, [], "invalid_type",
             "Expected: number, Received: a"⟩], nextId := 1 } : Ctx).setInput
               (.str "a") false,
           defaultValue (.numN {} none), .str "a"⟩) :=
  ⟨claim_C1.1 0 strPlain {} (.str " x ") {} (by decide) (by decide)
     (by decide),
   claim_C1.2 0 (.numN {} none) {} (.str "a")
     { issues := [⟨0, [], "invalid_type", "Expected: number, Received: a"⟩],
       nextId := 1 }
     ⟨0, [], "invalid_type", "Expected: number, Received: a"⟩
     (by decide) (by decide) (by decide) (by decide) (by decide) (by decide)⟩

/-- A single-candidate trial loop can only choose that candidate or reject
it. -/
theorem trials_single (fuel : Nat) (m : Node) (ctx : Ctx)
    (input val : JSValue) (ch : Option Node)
    (h : parseRun fuel (.trials [m] ctx input) = some (.trialOut ch val)) :
    ch = none ∨ ch = some m := by
  cases fuel with
  | zero => simp [parseRun] at h
  | succ f =>
    simp only [parseRun] at h
    rcases hn : parseRun f (.node m ctx.clone input) with _ | out <;>
      rw [hn] at h
    · simp at h
    · cases out with
      | res r =>
        dsimp only at h
        by_cases hc : r.ctx.issueCount = ctx.issueCount
        · rw [if_pos hc] at h
          simp only [Option.some.injEq, POut.trialOut.injEq] at h
          exact Or.inr h.1.symm
        · rw [if_neg hc] at h
          cases f with
          | zero => simp [parseRun] at h
          | succ g =>
            simp only [parseRun, Option.some.injEq, POut.trialOut.injEq] at h
            exact Or.inl h.1.symm
      | shadowOut t2 i2 => simp at h
      | trialOut c2 i2 => simp at h
      | kidsOut c2 v2 a2 => simp at h

/-- C8: for a union whose members all carry literal discriminant keys, an
object input matching none of them resolves to the first declared member
whenever resolution succeeds; the clone handed to each trial is a full,
sharing-free copy of the real context; and a rejected trial's context is
discarded outright — the loop continues on the untouched real context (same
issue set, input map and path), only the threaded input value moving on. -/
theorem claim_C8 :
    (∀ (fuel : Nat) (m0 : Node) (rest : List Node) (ctx : Ctx)
        (input : JSValue) (t : Node) (inp : JSValue),
      (∀ m ∈ m0 :: rest, (getLiteralKeys m).isEmpty = false) →
      isObject input = true →
      (∀ m ∈ m0 :: rest, (getLiteralKeys m).all
          (fun lk => primEq (jsGetStr input lk.key) lk.value) = false) →
      getShadowedType fuel (m0 :: rest) ctx input = some (t, inp) →
      t = m0) ∧
    (∀ ctx : Ctx, ctx.clone = ctx) ∧
    (∀ (fuel : Nat) (t : Node) (restT : List Node) (ctx : Ctx)
        (input : JSValue) (r : PRes),
      parseRun fuel (.node t ctx.clone input) = some (.res r) →
      ¬(r.ctx.issueCount = ctx.issueCount) →
      parseRun (fuel + 1) (.trials (t :: restT) ctx input)
        = parseRun fuel (.trials restT ctx r.inputAfter)) := by
  refine ⟨?_, fun ctx => rfl, ?_⟩
  · intro fuel m0 rest ctx input t inp h1 hobj h3 hres
    cases fuel with
    | zero => simp [getShadowedType, parseRun] at hres
    | succ fuel =>
      have hdiscr : (m0 :: rest).filter
          (fun m => !(getLiteralKeys m).isEmpty) = m0 :: rest :=
        List.filter_eq_self.mpr (fun m hm => by rw [h1 m hm]; rfl)
      have hfind : (m0 :: rest).find? (fun m =>
          !(getLiteralKeys m).isEmpty && (getLiteralKeys m).all
            (fun lk => primEq (jsGetStr input lk.key) lk.value)) = none :=
        List.find?_eq_none.mpr (fun m hm => by simp [h3 m hm])
      simp only [getShadowedType, parseRun, hobj, if_true, hdiscr, hfind,
        List.length_cons] at hres
      rcases htr : parseRun fuel (.trials [m0] ctx input) with _ | out <;>
        rw [htr] at hres
      · simp at hres
      · cases out with
        | res r => simp at hres
        | shadowOut t2 i2 => simp at hres
        | kidsOut c2 v2 a2 => simp at hres
        | trialOut ch inp2 =>
          rcases trials_single fuel m0 ctx input inp2 ch htr with hch | hch <;>
            subst hch <;> simp at hres <;> exact hres.1.symm
  · intro fuel t restT ctx input r hn hne
    simp only [parseRun]
    rw [hn]
    dsimp only
    rw [if_neg hne]

/-- C8 witness members: two object schemas discriminated by the literal
field t. -/
def unionA : Node := .objN {} [("t", .litN {} (.pstr "a"))]

/-- The second discriminated member. -/
def unionB : Node := .objN {} [("t", .litN {} (.pstr "b"))]

/-- A C8 input whose discriminant matches neither member. -/
def c8input : JSValue := .obj [("t", .str "c")]

/-- The result of the rejected trial of the first member on a clone of the
fresh context: one invalid_type issue on the trial context, input value
unchanged. -/
def c8r : PRes :=
  ⟨⟨[], [("", ⟨.obj [("t", .str "c")], true⟩), ("t", ⟨.str "c", false⟩)],
    [⟨0, [.s "t"], "invalid_type", "Expected: a, Received: c"⟩], 1, {}⟩,
   .obj [("t", .str "a")], .obj [("t", .str "c")]⟩

/-- C8 witness: on the concrete two-member discriminated union and the
non-matching input, resolution picks the first member, and the rejected
first trial leaves the real (empty) context untouched while the loop moves
on. -/
theorem claim_C8_witness :
    (∀ m ∈ [unionA, unionB], (getLiteralKeys m).isEmpty = false) ∧
    isObject c8input = true ∧
    (∀ m ∈ [unionA, unionB], (getLiteralKeys m).all
        (fun lk => primEq (jsGetStr c8input lk.key) lk.value) = false) ∧
    getShadowedType 13 [unionA, unionB] {} c8input = some (unionA, c8input) ∧
    unionA = unionA ∧
    parseRun 6 (.node unionA ({} : Ctx).clone c8input) = some (.res c8r) ∧
    ¬(c8r.ctx.issueCount = ({} : Ctx).issueCount) ∧
    parseRun 7 (.trials [unionA, unionB] {} c8input)
      = parseRun 6 (.trials [unionB] {} c8r.inputAfter) :=
  ⟨by decide, by decide, by decide, by decide,
   claim_C8.1 13 unionA [unionB] {} c8input unionA c8input (by decide)
     (by decide) (by decide) (by decide),
   by decide, by decide,
   claim_C8.2.2 6 unionA [unionB] {} c8input c8r (by decide) (by decide)⟩

mutual

/-- A schema with no object node anywhere: the only node kind whose clean
step mutates the caller's input in place is ObjectType, so these schemas
are the mutation-free fragment. -/
def objFree : Node → Bool
  | .objN _ _ => false
  | .arrN _ _ item => objFree item
  | .recN _ vt => objFree vt
  | .unionN _ ms => objFreeList ms
  | _ => true

def objFreeList : List Node → Bool
  | [] => true
  | m :: rest => objFree m && objFreeList rest

end

/-- No string occurs twice in the list. -/
def noDupKeys : List String → Bool
  | [] => true
  | k :: rest => !(decide (k ∈ rest)) && noDupKeys rest

mutual

/-- A JavaScript-representable value: no object level carries a duplicate
key (a real JS object cannot). -/
def jsWf : JSValue → Bool
  | .obj fields => noDupKeys (fields.map Prod.fst) && jsWfFields fields
  | .arr items => jsWfItems items
  | _ => true

def jsWfFields : List (String × JSValue) → Bool
  | [] => true
  | kv :: rest => jsWf kv.2 && jsWfFields rest

def jsWfItems : List JSValue → Bool
  | [] => true
  | v :: rest => jsWf v && jsWfItems rest

end

/-- Two path keys that address independent slots of any container: same-kind
keys that differ.  (A string key and a numeric key may alias on an object,
so mixed kinds are never treated as independent; the engine only ever emits
homogeneous child-key lists.) -/
def pkeyIndep : PKey → PKey → Bool
  | .s x, .s y => !(decide (x = y))
  | .n i, .n j => !(decide (i = j))
  | _, _ => false

/-- Every pair of keys in the list is independent. -/
def pairwiseIndep : List PKey → Bool
  | [] => true
  | k :: rest => rest.all (fun k2 => pkeyIndep k k2) && pairwiseIndep rest

/-- Writing back the value found at a key is the identity on the field
list. -/
theorem setField_find_self (fields : List (String × JSValue)) (key : String)
    (f : String × JSValue)
    (h : fields.find? (fun g => decide (g.1 = key)) = some f) :
    setField fields key f.2 = fields := by
  induction fields with
  | nil => simp [List.find?] at h
  | cons kv rest ih =>
    obtain ⟨k0, v0⟩ := kv
    rw [List.find?] at h
    by_cases hk : k0 = key
    · simp only [hk, decide_True] at h
      cases h
      simp [setField, hk]
    · simp only [hk, decide_False] at h
      simp [setField, hk, ih h]

/-- Replacing one key leaves lookups of a different key unchanged. -/
theorem find_setField_ne (fields : List (String × JSValue))
    (key key2 : String) (x : JSValue) (h : key ≠ key2) :
    (setField fields key x).find? (fun g => decide (g.1 = key2))
      = fields.find? (fun g => decide (g.1 = key2)) := by
  induction fields with
  | nil =>
    simp [setField, List.find?, show ¬(key = key2) from h]
  | cons kv rest ih =>
    obtain ⟨k0, v0⟩ := kv
    by_cases hk : k0 = key
    · simp only [setField, hk, if_true]
      rw [List.find?, List.find?]
      have h3 : ¬(k0 = key2) := by rw [hk]; exact h
      simp [h3, hk, h]
    · simp only [setField, hk, if_false, ite_false]
      rw [List.find?, List.find?]
      by_cases h2 : k0 = key2
      · simp [h2]
      · simp [h2, ih]

/-- Setting an index to the element already there is the identity. -/
theorem list_set_get {α : Type} :
    ∀ (l : List α) (n : Nat) (h : n < l.length),
      l.set n (l.get ⟨n, h⟩) = l
  | _ :: _, 0, _ => rfl
  | a :: l, n + 1, h => by
    simp only [List.set, List.get]
    rw [list_set_get l n (Nat.lt_of_succ_lt_succ h)]

/-- Reading an index other than the one just written sees the old
element. -/
theorem list_get_set_ne {α : Type} :
    ∀ (l : List α) (i j : Nat) (x : α), i ≠ j →
      ∀ (hj : j < (l.set i x).length) (hj2 : j < l.length),
      (l.set i x).get ⟨j, hj⟩ = l.get ⟨j, hj2⟩
  | [], _, _, _, _, _, _ => rfl
  | a :: l, 0, 0, x, hne, _, _ => absurd rfl hne
  | a :: l, 0, j + 1, x, _, _, _ => rfl
  | a :: l, i + 1, 0, x, _, _, _ => rfl
  | a :: l, i + 1, j + 1, x, hne, hj, hj2 =>
    list_get_set_ne l i j x (fun he => hne (by rw [he]))
      (Nat.lt_of_succ_lt_succ (by simpa using hj))
      (Nat.lt_of_succ_lt_succ hj2)

/-- Writing back the value read at a key leaves any value unchanged. -/
theorem jsUpdateExisting_get (v : JSValue) (k : PKey) :
    jsUpdateExisting v k (jsGet v k) = v := by
  cases v with
  | obj fields =>
    cases k with
    | s key =>
      simp only [jsUpdateExisting, jsGet, jsGetStr]
      rcases hf : fields.find? (fun g => decide (g.1 = key)) with _ | f
      · rw [hf]
        simp
      · rw [hf]
        simp only [Option.isSome_some, if_true, Option.elim]
        rw [setField_find_self fields key f hf]
    | n i => rfl
  | arr items =>
    cases k with
    | s key => rfl
    | n i =>
      simp only [jsUpdateExisting, jsGet]
      by_cases hb : 0 ≤ i ∧ i.toNat < items.length
      · rw [dif_pos hb, if_pos hb, list_set_get]
      · rw [dif_neg hb, if_neg hb]
  | undef => cases k <;> rfl
  | null => cases k <;> rfl
  | str s => cases k <;> rfl
  | num n => cases k <;> rfl
  | bool b => cases k <;> rfl
  | file f => cases k <;> rfl

/-- A write at one key does not change the read at an independent key. -/
theorem jsGet_jsSet_indep (v : JSValue) (a b : PKey) (x : JSValue)
    (h : pkeyIndep a b = true) :
    jsGet (jsSet v a x) b = jsGet v b := by
  cases a with
  | s ka =>
    cases b with
    | s kb =>
      simp only [pkeyIndep, Bool.not_eq_true', decide_eq_false_iff_not] at h
      cases v with
      | obj fields =>
        simp only [jsSet, jsGet, jsGetStr]
        rw [find_setField_ne fields ka kb x h]
      | arr items => rfl
      | undef => rfl
      | null => rfl
      | str s => rfl
      | num n => rfl
      | bool b2 => rfl
      | file f => rfl
    | n j => simp [pkeyIndep] at h
  | n ia =>
    cases b with
    | s kb => simp [pkeyIndep] at h
    | n jb =>
      simp only [pkeyIndep, Bool.not_eq_true', decide_eq_false_iff_not] at h
      cases v with
      | arr items =>
        simp only [jsSet]
        by_cases hbi : 0 ≤ ia ∧ ia.toNat < items.length
        · rw [if_pos hbi]
          simp only [jsGet]
          by_cases hbj : 0 ≤ jb ∧ jb.toNat < items.length
          · have hbj2 : 0 ≤ jb ∧ jb.toNat < (items.set ia.toNat x).length := by
              simpa using hbj
            rw [dif_pos hbj2, dif_pos hbj]
            exact list_get_set_ne items ia.toNat jb.toNat x
              (fun he => h (by omega)) _ _
          · have hbj2 : ¬(0 ≤ jb ∧ jb.toNat < (items.set ia.toNat x).length) := by
              simpa using hbj
            rw [dif_neg hbj2, dif_neg hbj]
        · rw [if_neg hbi]
      | obj fields => rfl
      | undef => rfl
      | null => rfl
      | str s => rfl
      | num n => rfl
      | bool b2 => rfl
      | file f => rfl

/-- Each field value of a well-formed field list is well formed. -/
theorem jsWfFields_mem :
    ∀ (l : List (String × JSValue)), jsWfFields l = true →
      ∀ kv ∈ l, jsWf kv.2 = true
  | [], _, kv, h => absurd h (List.not_mem_nil kv)
  | kv0 :: rest, hw, kv, h => by
    simp only [jsWfFields, Bool.and_eq_true] at hw
    rcases List.mem_cons.mp h with he | hm
    · rw [he]; exact hw.1
    · exact jsWfFields_mem rest hw.2 kv hm

/-- Each item of a well-formed item list is well formed. -/
theorem jsWfItems_mem :
    ∀ (l : List JSValue), jsWfItems l = true → ∀ v ∈ l, jsWf v = true
  | [], _, v, h => absurd h (List.not_mem_nil v)
  | v0 :: rest, hw, v, h => by
    simp only [jsWfItems, Bool.and_eq_true] at hw
    rcases List.mem_cons.mp h with he | hm
    · rw [he]; exact hw.1
    · exact jsWfItems_mem rest hw.2 v hm

/-- Any child read out of a well-formed value is well formed. -/
theorem jsWf_get (v : JSValue) (k : PKey) (hw : jsWf v = true) :
    jsWf (jsGet v k) = true := by
  have hstr : ∀ (w : JSValue), jsWf w = true → ∀ (key : String),
      jsWf (jsGetStr w key) = true := by
    intro w hww key
    cases w with
    | obj fields =>
      simp only [jsGetStr]
      rcases hf : fields.find? (fun g => decide (g.1 = key)) with _ | f
      · rw [hf]
        rfl
      · rw [hf]
        simp only [Option.elim]
        simp only [jsWf, Bool.and_eq_true] at hww
        exact jsWfFields_mem fields hww.2 f (List.mem_of_find?_eq_some hf)
    | arr items =>
      simp only [jsGetStr]
      by_cases hl : key = "length"
      · simp [hl, jsWf]
      · rw [if_neg hl]
        rcases parseIntM key with _ | i
        · rfl
        · dsimp only
          by_cases hb : 0 ≤ i ∧ i.toNat < items.length
          · rw [dif_pos hb]
            exact jsWfItems_mem items hww (items.get ⟨i.toNat, hb.2⟩)
              (items.get_mem _ _)
          · rw [dif_neg hb]
            rfl
    | undef => rfl
    | null => rfl
    | str s => rfl
    | num n => rfl
    | bool b => rfl
    | file f => rfl
  cases k with
  | s key => exact hstr v hw key
  | n i =>
    cases v with
    | arr items =>
      simp only [jsGet]
      by_cases hb : 0 ≤ i ∧ i.toNat < items.length
      · rw [dif_pos hb]
        exact jsWfItems_mem items hw (items.get ⟨i.toNat, hb.2⟩)
          (items.get_mem _ _)
      · rw [dif_neg hb]
        rfl
    | obj fields => exact hstr (.obj fields) hw (toString i)
    | undef => rfl
    | null => rfl
    | str s => rfl
    | num n => rfl
    | bool b => rfl
    | file f => rfl

/-- Duplicate-free string keys map to pairwise-independent path keys. -/
theorem pairwiseIndep_strKeys {α : Type} (f : α → String) :
    ∀ (l : List α), noDupKeys (l.map f) = true →
      pairwiseIndep (l.map (fun x => PKey.s (f x))) = true
  | [], _ => rfl
  | a :: rest, h => by
    simp only [List.map_cons, noDupKeys, Bool.and_eq_true, Bool.not_eq_true',
      decide_eq_false_iff_not] at h
    simp only [List.map_cons, pairwiseIndep, Bool.and_eq_true]
    refine ⟨?_, pairwiseIndep_strKeys f rest h.2⟩
    rw [List.all_eq_true]
    intro pk hpk
    rcases List.mem_map.mp hpk with ⟨b, hb, he⟩
    subst he
    simp only [pkeyIndep, Bool.not_eq_true', decide_eq_false_iff_not]
    intro he2
    exact h.1 (he2 ▸ List.mem_map_of_mem f hb)

/-- Distinct indices map to pairwise-independent numeric path keys. -/
theorem pairwiseIndep_natKeys (f : Nat → Int)
    (hinj : ∀ a b : Nat, f a = f b → a = b) :
    ∀ (l : List Nat), l.Pairwise (fun a b => a ≠ b) →
      pairwiseIndep (l.map (fun i => PKey.n (f i))) = true
  | [], _ => rfl
  | a :: rest, h => by
    rw [List.pairwise_cons] at h
    simp only [List.map_cons, pairwiseIndep, Bool.and_eq_true]
    refine ⟨?_, pairwiseIndep_natKeys f hinj rest h.2⟩
    rw [List.all_eq_true]
    intro pk hpk
    rcases List.mem_map.mp hpk with ⟨b, hb, he⟩
    subst he
    simp only [pkeyIndep, Bool.not_eq_true', decide_eq_false_iff_not]
    intro he2
    exact h.1 b hb (hinj a b he2)

/-- Folding identity-writes over the original value is the identity. -/
theorem foldl_update_get (o : JSValue) :
    ∀ (ks : List (PKey × Node)),
      (ks.map (fun kt => (kt.1, jsGet o kt.1))).foldl
        (fun m ka => jsUpdateExisting m ka.1 ka.2) o = o
  | [] => rfl
  | kt :: rest => by
    simp only [List.map_cons, List.foldl_cons]
    rw [jsUpdateExisting_get o kt.1]
    exact foldl_update_get o rest

/-- Every member of an object-free list is object-free. -/
theorem objFreeList_mem :
    ∀ (l : List Node), objFreeList l = true → ∀ m ∈ l, objFree m = true
  | [], _, m, h => absurd h (List.not_mem_nil m)
  | m0 :: rest, hf, m, h => by
    simp only [objFreeList, Bool.and_eq_true] at hf
    rcases List.mem_cons.mp h with he | hm
    · rw [he]; exact hf.1
    · exact objFreeList_mem rest hf.2 m hm

set_option maxHeartbeats 4000000 in
/-- The body of the node case of the engine after union resolution (com is
the original node's shared state, actual the resolved node, and the
hypothesis is the equation-unfolded body) hands back the input value
unchanged whenever the resolved node is object-free and the input is well
formed.  The children behaviour is taken as a hypothesis so the statement
can be closed by the fuel induction. -/
theorem nodeBody_preserves (fuel : Nat)
    (ihk : ∀ (keys : List (PKey × Node)) (ctx : Ctx) (pv o : JSValue)
        (ctx2 : Ctx) (pv2 : JSValue) (afters : List (PKey × JSValue)),
      (∀ kt ∈ keys, objFree kt.2 = true) →
      pairwiseIndep (keys.map Prod.fst) = true →
      (∀ kt ∈ keys, jsGet pv kt.1 = jsGet o kt.1) →
      jsWf o = true →
      parseRun fuel (.children keys ctx pv) = some (.kidsOut ctx2 pv2 afters) →
      afters = keys.map (fun kt => (kt.1, jsGet o kt.1)))
    (com : Common) (actual : Node) (ctx : Ctx) (input : JSValue) (r : PRes)
    (h : (match
        (if isNullish input = true then
          match input with
          | JSValue.undef =>
            if com.isOptional = true then some (ctx, none, none, false)
            else
              some ((ctx.pushIssue "required" (requiredMsg input) none).1,
                none,
                some (ctx.pushIssue "required" (requiredMsg input) none).2,
                false)
          | _ =>
            if com.isNullable = true then some (ctx, none, none, false)
            else
              some ((ctx.pushIssue "required" (requiredMsg input) none).1,
                none,
                some (ctx.pushIssue "required" (requiredMsg input) none).2,
                false)
        else
          match checkFn actual ctx input with
          | none => none
          | some (ctx, CheckRes.pass) => some (ctx, some input, none, false)
          | some (ctx, CheckRes.fail res) =>
            match coerceFn actual ctx.options input with
            | some c => some (ctx.removeIssues [res], some c, none, true)
            | none => some (ctx, none, some res, false)) with
      | none => none
      | some (ctx, value?, issue?, coerced) =>
        let ctxS := ctx.setInput input issue?.isNone
        let trip :=
          match value? with
          | some v =>
            (false, cleanFn actual ctxS.options v,
              match actual with
              | Node.objN _ _ => cleanFn actual ctxS.options v
              | _ => input)
          | none => (true, defaultValue actual, input)
        let ovrP :=
          match
            (tryGetCoreIssueOverride ctxS
              ((Option.map Issue.code issue?).getD "") com).2,
            issue? with
          | some oi, some i =>
            ((tryGetCoreIssueOverride ctxS
                ((Option.map Issue.code issue?).getD "") com).1.removeIssues
              [i], some oi)
          | some oi, none =>
            ((tryGetCoreIssueOverride ctxS
                ((Option.map Issue.code issue?).getD "") com).1, some oi)
          | none, i? =>
            ((tryGetCoreIssueOverride ctxS
                ((Option.map Issue.code issue?).getD "") com).1, i?)
        let ctxF :=
          match ovrP.2 with
          | some i => ovrP.1.addIssues [i]
          | none => ovrP.1
        if trip.1 = true then some (POut.res ⟨ctxF, trip.2.1, trip.2.2⟩)
        else
          match parseRun fuel
              (.children (getChildKeys actual trip.2.1) ctxF trip.2.1) with
          | some (POut.kidsOut ctx_1 value childAfters) =>
            some (POut.res ⟨ctx_1, value,
              if coerced = true then
                match childAfters with
                | [ka] => ka.2
                | _ => trip.2.2
              else
                childAfters.foldl (fun m ka => jsUpdateExisting m ka.1 ka.2)
                  trip.2.2⟩)
          | _ => none) = (some (POut.res r) : Option POut))
    (hf : objFree actual = true) (hw : jsWf input = true) :
    r.inputAfter = input := by
  have ext : ∀ (x : Option POut), x = some (.res r) →
      r.inputAfter = (match x with
        | some (.res p) => p.inputAfter
        | _ => JSValue.undef) := by
    intro x hx
    rw [hx]
  by_cases hnl : isNullish input = true
  · rw [if_pos hnl] at h
    have hni : input = JSValue.undef ∨ input = JSValue.null := by
      cases input <;> simp [isNullish] at hnl <;> simp
    rcases hni with hfe | hfe <;>
      (rw [hfe] at h ⊢
       (try dsimp only at h)
       split at h
       · exact absurd h (by simp)
       · rename_i ctxA valq issq coer heq
         (try dsimp only at heq)
         split at heq
         all_goals (
           simp only [Ctx.pushIssue, Option.some.injEq, Prod.mk.injEq] at heq
           obtain ⟨e1, e2, e3, e4⟩ := heq
           subst e1
           subst e2
           subst e3
           subst e4
           (try dsimp only at h)
           first
             | (exact ext _ h)
             | simp_all))
  · rw [if_neg hnl] at h
    cases actual
    rotate_left 6
    · simp [objFree] at hf
    rotate_left 1
    ·
      simp only [objFree] at hf
      (try dsimp only at h)
      split at h
      · exact absurd h (by simp)
      · rename_i ctxA valq issq coer heq
        split at heq
        · exact absurd heq (by simp)
        · rename_i ctxP hchk
          simp only [Option.some.injEq, Prod.mk.injEq] at heq
          obtain ⟨e1, e2, e3, e4⟩ := heq
          subst e1
          subst e2
          subst e3
          subst e4
          simp only [checkFn] at hchk
          split at hchk
          · rename_i hio
            have hex : ∃ fields, input = JSValue.obj fields := by
              cases input <;> (try exact ⟨_, rfl⟩) <;> simp [isObject] at hio
            obtain ⟨fields, hfe⟩ := hex
            rw [hfe] at h hw
            rw [hfe]
            simp only [jsWf, Bool.and_eq_true] at hw
            simp only [cleanFn, getChildKeys] at h
            (try dsimp only at h)
            split at h
            · exact ext _ h
            · split at h
              · rename_i ctx2 v2 afters heq2
                have ha := ihk _ _ _ (JSValue.obj fields) _ _ _
                  (by
                    intro kt hkt
                    rcases List.mem_map.mp hkt with ⟨kv, _, he⟩
                    rw [← he]
                    exact hf)
                  (by
                    rw [List.map_map]
                    exact pairwiseIndep_strKeys Prod.fst fields hw.1)
                  (fun kt _ => rfl)
                  (by simp [jsWf, hw.1, hw.2])
                  heq2
                rw [ha] at h
                rw [foldl_update_get] at h
                exact ext _ h
              · exact absurd h (by simp)
          · rename_i hio
            simp at hchk
        · rename_i ctxP res hchk
          simp only [coerceFn] at heq
          simp only [Option.some.injEq, Prod.mk.injEq] at heq
          obtain ⟨e1, e2, e3, e4⟩ := heq
          subst e1
          subst e2
          subst e3
          subst e4
          (try dsimp only at h)
          first
            | (exact ext _ h)
            | simp_all
    rotate_right 1
    ·
      simp only [objFree] at hf
      (try dsimp only at h)
      split at h
      · exact absurd h (by simp)
      · rename_i ctxA valq issq coer heq
        split at heq
        · exact absurd heq (by simp)
        · rename_i ctxP hchk
          simp only [Option.some.injEq, Prod.mk.injEq] at heq
          obtain ⟨e1, e2, e3, e4⟩ := heq
          subst e1
          subst e2
          subst e3
          subst e4
          simp only [checkFn] at hchk
          split at hchk
          · rename_i hia
            have hex : ∃ items, input = JSValue.arr items := by
              cases input <;> (try exact ⟨_, rfl⟩) <;> simp [isArray] at hia
            obtain ⟨items, hfe⟩ := hex
            rw [hfe] at h hw
            rw [hfe]
            simp only [cleanFn, getChildKeys] at h
            (try dsimp only at h)
            split at h
            · exact ext _ h
            · split at h
              · rename_i ctx2 v2 afters heq2
                have ha := ihk _ _ _ (JSValue.arr items) _ _ _
                  (by
                    intro kt hkt
                    rcases List.mem_map.mp hkt with ⟨i, _, he⟩
                    rw [← he]
                    exact hf)
                  (by
                    rw [List.map_map]
                    exact pairwiseIndep_natKeys (fun i => (i : Int))
                      (fun a b hab => Int.ofNat.inj hab) _
                      ((List.pairwise_lt_range items.length).imp
                        (fun hlt => Nat.ne_of_lt hlt)))
                  (fun kt _ => rfl)
                  hw
                  heq2
                rw [ha] at h
                rw [foldl_update_get] at h
                exact ext _ h
              · exact absurd h (by simp)
          · rename_i hia
            simp at hchk
        · rename_i ctxP res hchk
          split at heq
          · rename_i c hco
            simp only [coerceFn] at hco
            split at hco
            · rename_i hcond
              injection hco with hco2
              subst hco2
              simp only [Option.some.injEq, Prod.mk.injEq] at heq
              obtain ⟨e1, e2, e3, e4⟩ := heq
              subst e1
              subst e2
              subst e3
              subst e4
              simp only [cleanFn, getChildKeys] at h
              (try dsimp only at h)
              split at h
              · exact ext _ h
              · split at h
                · rename_i ctx2 v2 afters heq2
                  have ha := ihk _ _ _ (JSValue.arr [input]) _ _ _
                    (by
                      intro kt hkt
                      rcases List.mem_map.mp hkt with ⟨i, _, he⟩
                      rw [← he]
                      exact hf)
                    (by
                      rw [List.map_map]
                      exact pairwiseIndep_natKeys (fun i => (i : Int))
                        (fun a b hab => Int.ofNat.inj hab) _
                        ((List.pairwise_lt_range _).imp
                          (fun hlt => Nat.ne_of_lt hlt)))
                    (fun kt _ => rfl)
                    (by simp [jsWf, jsWfItems, hw])
                    heq2
                  rw [ha] at h
                  exact ext _ h
                · exact absurd h (by simp)
            · simp at hco
          · simp only [Option.some.injEq, Prod.mk.injEq] at heq
            obtain ⟨e1, e2, e3, e4⟩ := heq
            subst e1
            subst e2
            subst e3
            subst e4
            (try dsimp only at h)
            first
              | (exact ext _ h)
              | simp_all
    all_goals (
      (try dsimp only at h)
      split at h
      · exact absurd h (by simp)
      · rename_i ctxA valq issq coer heq
        split at heq
        · exact absurd heq (by simp)
        · rename_i ctxP hchk
          simp only [Option.some.injEq, Prod.mk.injEq] at heq
          obtain ⟨e1, e2, e3, e4⟩ := heq
          subst e1
          subst e2
          subst e3
          subst e4
          simp only [getChildKeys] at h
          (try dsimp only at h)
          split at h
          · exact ext _ h
          · split at h
            · rename_i ctx2 v2 afters heq2
              have ha := ihk [] _ _ input _ _ _
                (by intro kt hkt; simp at hkt)
                (by simp [pairwiseIndep])
                (by intro kt hkt; simp at hkt)
                hw
                heq2
              rw [ha] at h
              exact ext _ h
            · exact absurd h (by simp)
        · rename_i ctxP res hchk
          split at heq
          · rename_i c hco
            simp only [Option.some.injEq, Prod.mk.injEq] at heq
            obtain ⟨e1, e2, e3, e4⟩ := heq
            subst e1
            subst e2
            subst e3
            subst e4
            simp only [getChildKeys] at h
            (try dsimp only at h)
            split at h
            · exact ext _ h
            · split at h
              · rename_i ctx2 v2 afters heq2
                have ha := ihk [] _ _ input _ _ _
                  (by intro kt hkt; simp at hkt)
                  (by simp [pairwiseIndep])
                  (by intro kt hkt; simp at hkt)
                  hw
                  heq2
                rw [ha] at h
                exact ext _ h
              · exact absurd h (by simp)
          · simp only [Option.some.injEq, Prod.mk.injEq] at heq
            obtain ⟨e1, e2, e3, e4⟩ := heq
            subst e1
            subst e2
            subst e3
            subst e4
            (try dsimp only at h)
            first
              | (exact ext _ h)
              | simp_all)

set_option maxHeartbeats 4000000 in
/-- Fuel-indexed frame property of the engine: node jobs hand back their
input unchanged, shadow and trial jobs thread the input through untouched
(and pick a member of the list), and children jobs report exactly the
per-key reads of the original value, whenever the schemas involved are
object-free and the value is well formed. -/
theorem parseRun_preserves : ∀ (fuel : Nat),
    (∀ (n : Node) (ctx : Ctx) (input : JSValue) (r : PRes),
        objFree n = true → jsWf input = true →
        parseRun fuel (.node n ctx input) = some (.res r) →
        r.inputAfter = input) ∧
    (∀ (ms : List Node) (ctx : Ctx) (input : JSValue) (t : Node)
        (inp : JSValue),
        objFreeList ms = true → jsWf input = true →
        parseRun fuel (.shadow ms ctx input) = some (.shadowOut t inp) →
        inp = input ∧ t ∈ ms) ∧
    (∀ (ms : List Node) (ctx : Ctx) (input : JSValue) (t? : Option Node)
        (inp : JSValue),
        (∀ m ∈ ms, objFree m = true) → jsWf input = true →
        parseRun fuel (.trials ms ctx input) = some (.trialOut t? inp) →
        inp = input ∧ ∀ t, t? = some t → t ∈ ms) ∧
    (∀ (keys : List (PKey × Node)) (ctx : Ctx) (pv o : JSValue) (ctx2 : Ctx)
        (pv2 : JSValue) (afters : List (PKey × JSValue)),
        (∀ kt ∈ keys, objFree kt.2 = true) →
        pairwiseIndep (keys.map Prod.fst) = true →
        (∀ kt ∈ keys, jsGet pv kt.1 = jsGet o kt.1) →
        jsWf o = true →
        parseRun fuel (.children keys ctx pv) =
          some (.kidsOut ctx2 pv2 afters) →
        afters = keys.map (fun kt => (kt.1, jsGet o kt.1)))
  | 0 => by
    refine ⟨?_, ?_, ?_, ?_⟩
    · intro n ctx input r _ _ h
      exact Option.noConfusion h
    · intro ms ctx input t inp _ _ h
      exact Option.noConfusion h
    · intro ms ctx input t? inp _ _ h
      exact Option.noConfusion h
    · intro keys ctx pv o ctx2 pv2 afters _ _ _ _ h
      exact Option.noConfusion h
  | fuel + 1 => by
    obtain ⟨ih1, ih2, ih3, ih4⟩ := parseRun_preserves fuel
    refine ⟨?_, ?_, ?_, ?_⟩
    · intro n ctx input r hf hw h
      cases n
      case unionN c ms =>
        simp only [parseRun] at h
        (try dsimp only at h)
        split at h
        · exact absurd h (by simp)
        · rename_i actual inp heqR
          split at heqR
          · rename_i t2 inp2 hsh
            injection heqR with heqR
            injection heqR with e1 e2
            subst e1
            subst e2
            simp only [objFree] at hf
            obtain ⟨hinp, hmem⟩ := ih2 ms ctx input t2 inp2 hf hw hsh
            have hb := nodeBody_preserves fuel ih4 ((Node.unionN c ms).common)
              t2 ctx inp2 r h (objFreeList_mem ms hf t2 hmem)
              (by rw [hinp]; exact hw)
            rw [hb, hinp]
          · exact absurd heqR (by simp)
      all_goals (simp only [parseRun] at h
                 exact nodeBody_preserves fuel ih4 _ _ ctx input r h hf hw)
    · intro ms ctx input t inp hmf hw h
      simp only [parseRun] at h
      (try dsimp only at h)
      split at h
      · exact absurd h (by simp)
      · rename_i t0 ttail heqTF
        have hsub : ∀ x, x ∈ t0 :: ttail → x ∈ ms := by
          intro x hx
          rw [← heqTF] at hx
          split at hx
          · rename_i t2 heq2
            split at heq2
            · rename_i hio
              simp only [List.mem_singleton] at hx
              subst hx
              exact List.mem_of_mem_filter (List.mem_of_find?_eq_some heq2)
            · exact absurd heq2 (by simp)
          · rename_i heq2
            split at hx
            · split at hx
              · exact absurd hx (by simp)
              · simp only [List.mem_singleton] at hx
                subst hx
                exact List.mem_cons_self _ _
            · exact hx
        split at h
        · rename_i t2 inp2 htr
          rw [heqTF] at htr
          injection h with h
          injection h with e1 e2
          obtain ⟨hinp, hpick⟩ := ih3 (t0 :: ttail) ctx input (some t2) inp2
            (fun m hm => objFreeList_mem ms hmf m (hsub m hm)) hw htr
          refine ⟨by rw [← e2]; exact hinp, ?_⟩
          rw [← e1]
          exact hsub t2 (hpick t2 rfl)
        · rename_i inp2 htr
          rw [heqTF] at htr
          injection h with h
          injection h with e1 e2
          obtain ⟨hinp, _⟩ := ih3 (t0 :: ttail) ctx input none inp2
            (fun m hm => objFreeList_mem ms hmf m (hsub m hm)) hw htr
          refine ⟨by rw [← e2]; exact hinp, ?_⟩
          rw [← e1]
          exact hsub t0 (List.mem_cons_self _ _)
        · exact absurd h (by simp)
    · intro ms ctx input t? inp hms hw h
      cases ms with
      | nil =>
        have h0 : parseRun (fuel + 1) (PJob.trials [] ctx input) =
            some (POut.trialOut none input) := rfl
        rw [h0] at h
        injection h with h
        injection h with e1 e2
        refine ⟨e2.symm, ?_⟩
        intro t ht
        rw [← e1] at ht
        exact Option.noConfusion ht
      | cons t0 rest =>
        simp only [parseRun] at h
        (try dsimp only at h)
        split at h
        · rename_i r hr
          have hr2 := ih1 t0 _ input r (hms t0 (List.mem_cons_self _ _)) hw hr
          split at h
          · injection h with h
            injection h with e1 e2
            refine ⟨e2.symm.trans hr2, ?_⟩
            intro t ht
            rw [← e1] at ht
            injection ht with ht2
            rw [← ht2]
            exact List.mem_cons_self _ _
          · rw [hr2] at h
            obtain ⟨hinp, hpick⟩ := ih3 rest ctx input t? inp
              (fun m hm => hms m (List.mem_cons_of_mem _ hm)) hw h
            exact ⟨hinp, fun t ht => List.mem_cons_of_mem _ (hpick t ht)⟩
        · exact absurd h (by simp)
    · intro keys ctx pv o ctx2 pv2 afters h1 h2 h3 hwo h
      cases keys with
      | nil =>
        have h0 : parseRun (fuel + 1) (PJob.children [] ctx pv) =
            some (POut.kidsOut ctx pv []) := rfl
        rw [h0] at h
        injection h with h
        injection h with e1 e2 e3
        exact e3.symm
      | cons kt rest =>
        obtain ⟨k, t⟩ := kt
        simp only [parseRun] at h
        (try dsimp only at h)
        simp only [List.map_cons, pairwiseIndep, Bool.and_eq_true,
          List.all_eq_true] at h2
        split at h
        · rename_i r hr
          split at h
          · rename_i ctxk pvk rest_after hrest
            injection h with h
            injection h with e1 e2 e3
            have hne := ih1 t _ (jsGet pv k) r (h1 (k, t)
                (List.mem_cons_self _ _))
              (by rw [h3 (k, t) (List.mem_cons_self _ _)]
                  exact jsWf_get o k hwo) hr
            have hrest2 := ih4 rest _ (jsSet pv k r.value) o _ _ _
              (fun kt hkt => h1 kt (List.mem_cons_of_mem _ hkt))
              h2.2
              (fun kt hkt => by
                rw [jsGet_jsSet_indep pv k kt.1 r.value
                  (h2.1 kt.1 (List.mem_map_of_mem Prod.fst hkt))]
                exact h3 kt (List.mem_cons_of_mem _ hkt))
              hwo hrest
            rw [← e3]
            simp only [List.map_cons]
            rw [hrest2, hne, h3 (k, t) (List.mem_cons_self _ _)]
          · exact absurd h (by simp)
        · exact absurd h (by simp)

/-- Concrete input for the C3 witness. -/
def c3input : JSValue := .obj [("a", .str "1"), ("b", .str "2")]

/-- The full engine result of parsing c3input with a record-of-strings
schema. -/
def c3res : PRes :=
  ⟨⟨[], [("", ⟨c3input, true⟩), ("a", ⟨.str "1", true⟩),
      ("b", ⟨.str "2", true⟩)], [], 0, {}⟩, c3input, c3input⟩

/-- C3 (amended): for an object-free schema (no object node with a declared
property list anywhere) and a well-formed input tree, parseInput hands the
caller-supplied input value back unchanged, nested objects and arrays
included: the only state the parse builds up is the per-call context. -/
theorem claim_C3 (fuel : Nat) (n : Node) (ctx : Ctx) (input : JSValue)
    (r : PRes) (hf : objFree n = true) (hw : jsWf input = true)
    (h : parseInput fuel n ctx input = some r) :
    r.inputAfter = input := by
  simp only [parseInput] at h
  split at h
  · rename_i r2 hr
    injection h with h
    rw [← h]
    exact (parseRun_preserves fuel).1 n ctx input r2 hf hw hr
  · exact Option.noConfusion h

/-- C3 counterexample to the unrestricted claim: an object schema deletes
the undeclared key extra from the value it hands back, so the caller-visible
input tree is changed by the parse (ObjectType.clean filters the caller's
object in place). -/
theorem claim_C3_cex :
    (parseInput 4 (Node.objN {} [("name", strPlain)]) {}
        (JSValue.obj [("name", JSValue.str "a"),
          ("extra", JSValue.str "x")])).map PRes.inputAfter =
      some (JSValue.obj [("name", JSValue.str "a")]) ∧
    JSValue.obj [("name", JSValue.str "a")] ≠
      JSValue.obj [("name", JSValue.str "a"), ("extra", JSValue.str "x")] :=
  ⟨by decide, by decide⟩

/-- C3 witness: a record-of-strings schema over a two-field object hands
back exactly the original object. -/
theorem claim_C3_witness :
    objFree (Node.recN {} strPlain) = true ∧
    jsWf c3input = true ∧
    c3res.inputAfter = c3input :=
  ⟨by decide, by decide,
   claim_C3 6 (Node.recN {} strPlain) {} c3input c3res (by decide) (by decide)
     (by decide)⟩


/-- C9 witness: a concrete string node, extended twice under the name min,
ends up with exactly one min entry holding the latest parameters. -/
theorem claim_C9_witness :
    (Node.strN {} none none none).getExtensionParams "min" = none ∧
    (((Node.strN {} none none none).addExtension false "min" [.pnum 2] none
        ⟨[], .unit⟩).addExtension false "min" [.pnum 5] none
        ⟨[], .unit⟩).getExtensionParams "min" = some [.pnum 5] := by
  have h := claim_C9 (Node.strN {} none none none) "min" false
    [.pnum 2] [.pnum 5] none none ⟨[], .unit⟩ ⟨[], .unit⟩ rfl rfl
  exact ⟨h.1, h.2.2.2.2.2⟩

end Pukka
